import Mathlib

/-!
Shallow embedding of the `dice` contract (`src/contracts/dice/dice.hpp`).

Modelling conventions:
* `checksum256` values are modelled as `Nat` (the struct is only ever compared
  bytewise, tested for being all-zero, and used as an injective index key, so an
  abstract injectively-represented value suffices); `is_zero` becomes `= 0`.
* `account_name`, amounts and timestamps are `Nat`.  `asset` amounts are
  non-negative in every code path exercised here (placement rejects
  non-positive bets), and the eosio token arithmetic asserts on underflow, so
  balances are `Nat` and each subtraction site carries the explicit underflow
  guard that the token library enforces.
* The `uint32` counters `open_offers` / `open_games` are `Nat`; every decrement
  site in the contract is reached only when the counter is positive (proved as
  part of the reachable-state invariant below), where `Nat` subtraction and
  `uint32` decrement agree.
* Each multi_index table is a `List` of rows; `find` on the primary key or the
  (injective) commitment index is `List.find?`, `modify` rewrites the row with
  the given key, `erase` filters it out.  `available_primary_key` is
  max id + 1 (0 on an empty table), as in eosio.
* sha256 appears twice and is abstracted by two parameters: `sha`, the digest
  of a single 32-byte buffer (used by `assert_sha256` on the revealed source),
  and `gd`, which abstracts hashing the 128-byte concatenation
  `player1.commitment ++ player1.reveal ++ player2.commitment ++
  player2.reveal` and returns the pair `(digest.hash[0], digest.hash[1])`,
  the only two bytes the contract reads.
* Every external call is atomic: an `Except.error` result models
  `eosio_assert` aborting the whole action with no state change.  Dereferencing
  a `find` result that the code does not guard is modelled as the dedicated
  error `Err.missingRecord`.
* `require_auth` and `inline_transfer` are external collaborators assumed to
  succeed; they do not touch the contract tables.
-/

namespace Dice

/-- A player slot inside a game: commitment and (zero = absent) reveal. -/
structure Player where
  commitment : Nat
  reveal : Nat
deriving DecidableEq

/-- A row of the offer table. -/
structure Offer where
  id : Nat
  owner : Nat
  bet : Nat
  commitment : Nat
  gameid : Nat
deriving DecidableEq

/-- A row of the game table. -/
structure Game where
  id : Nat
  bet : Nat
  deadline : Nat
  player1 : Player
  player2 : Player
deriving DecidableEq

/-- A row of the account table. -/
structure Account where
  owner : Nat
  eos_balance : Nat
  open_offers : Nat
  open_games : Nat
deriving DecidableEq

/-- `account::is_empty`: balance and both counters are zero. -/
def Account.is_empty (a : Account) : Bool :=
  a.eos_balance == 0 && a.open_offers == 0 && a.open_games == 0

/-- The whole contract state: the four tables.  `global` is the singleton
`global_dice` row (`none` before its lazy creation), holding `nextgameid`. -/
structure DiceState where
  offers : List Offer
  games : List Game
  global : Option Nat
  accounts : List Account
deriving DecidableEq

/-- Abort reasons, one per `eosio_assert` site (plus `missingRecord` for an
unguarded dereference of a failed `find`).  `insufficientFunds` is the
underflow assertion inside the eosio token subtraction. -/
inductive Err where
  | invalidBet
  | duplicateCommitment
  | unknownAccount
  | insufficientFunds
  | offerNotFound
  | unableToCancel
  | invalidReveal
  | unableToReveal
  | alreadyRevealed
  | gameNotFound
  | gameNotExpired
  | gameError
  | missingRecord
deriving DecidableEq

/-- `FIVE_MINUTES` in seconds. -/
def FIVE_MINUTES : Nat := 5 * 60

/-- Find an offer by primary key. -/
def findOfferById (l : List Offer) (i : Nat) : Option Offer :=
  l.find? (fun o => o.id == i)

/-- Find an offer through the commitment secondary index. -/
def findOfferByCommitment (l : List Offer) (c : Nat) : Option Offer :=
  l.find? (fun o => o.commitment == c)

/-- `dice::has_offer`. -/
def hasOffer (l : List Offer) (c : Nat) : Bool :=
  (findOfferByCommitment l c).isSome

/-- Modify the offer row with the given primary key. -/
def modifyOfferById (l : List Offer) (i : Nat) (f : Offer → Offer) : List Offer :=
  l.map (fun o => if o.id == i then f o else o)

/-- Erase the offer row with the given primary key. -/
def eraseOfferById (l : List Offer) (i : Nat) : List Offer :=
  l.filter (fun o => o.id != i)

/-- Find a game by primary key. -/
def findGame (l : List Game) (i : Nat) : Option Game :=
  l.find? (fun g => g.id == i)

/-- Modify the game row with the given primary key. -/
def modifyGameById (l : List Game) (i : Nat) (f : Game → Game) : List Game :=
  l.map (fun g => if g.id == i then f g else g)

/-- Erase the game row with the given primary key. -/
def eraseGameById (l : List Game) (i : Nat) : List Game :=
  l.filter (fun g => g.id != i)

/-- Find an account by owner (the primary key). -/
def findAccount (l : List Account) (w : Nat) : Option Account :=
  l.find? (fun a => a.owner == w)

/-- Modify the account row with the given owner. -/
def modifyAccount (l : List Account) (w : Nat) (f : Account → Account) : List Account :=
  l.map (fun a => if a.owner == w then f a else a)

/-- Erase the account row with the given owner. -/
def eraseAccount (l : List Account) (w : Nat) : List Account :=
  l.filter (fun a => a.owner != w)

/-- `available_primary_key`: max id + 1, or 0 on an empty table. -/
def availablePrimaryKey (l : List Offer) : Nat :=
  l.foldl (fun m o => max m (o.id + 1)) 0

/-- Strict order on the `(by_bet, primary key)` key of the bet secondary
index. -/
def betKeyLt (a b : Offer) : Bool :=
  a.bet < b.bet || (a.bet == b.bet && a.id < b.id)

/-- `idx.lower_bound(amount)` on the bet index: the `(bet, id)`-least offer
whose bet is at least `amount`, `none` past the end of the index. -/
def betLowerBound (l : List Offer) (amount : Nat) : Option Offer :=
  match l with
  | [] => none
  | o :: t =>
    let r := betLowerBound t amount
    if amount ≤ o.bet then
      match r with
      | none => some o
      | some m => if betKeyLt o m then some o else some m
    else r

/-- Row update of `pay_and_clean` on the winner: credit `2*bet`, decrement
`open_games`. -/
def creditWinner (bet : Nat) (a : Account) : Account :=
  { a with eos_balance := a.eos_balance + 2 * bet, open_games := a.open_games - 1 }

/-- Row update of `pay_and_clean` on the loser: decrement `open_games`. -/
def decGames (a : Account) : Account :=
  { a with open_games := a.open_games - 1 }

/-- Row update of `offerbet` when the offer is queued unmatched: debit the
stake, increment `open_offers`. -/
def debitQueued (bet : Nat) (a : Account) : Account :=
  { a with eos_balance := a.eos_balance - bet, open_offers := a.open_offers + 1 }

/-- Row update of `offerbet` on the matched offer's owner: decrement
`open_offers`, increment `open_games`. -/
def matchedOwnerUpd (a : Account) : Account :=
  { a with open_offers := a.open_offers - 1, open_games := a.open_games + 1 }

/-- Row update of `offerbet` on the placing player at match time: debit the
stake, increment `open_games`. -/
def debitMatched (bet : Nat) (a : Account) : Account :=
  { a with eos_balance := a.eos_balance - bet, open_games := a.open_games + 1 }

/-- Row update marking an offer as matched: zero the bet, record the game. -/
def markMatched (gid : Nat) (o : Offer) : Offer :=
  { o with bet := 0, gameid := gid }

/-- Row update of `canceloffer`: decrement `open_offers`, refund the stake. -/
def refundCancel (bet : Nat) (a : Account) : Account :=
  { a with open_offers := a.open_offers - 1, eos_balance := a.eos_balance + bet }

/-- Row update of `deposit`: credit the transferred amount. -/
def creditDeposit (amount : Nat) (a : Account) : Account :=
  { a with eos_balance := a.eos_balance + amount }

/-- Row update of `withdraw`: debit the transferred amount. -/
def debitWithdraw (amount : Nat) (a : Account) : Account :=
  { a with eos_balance := a.eos_balance - amount }

/-- Row update of `reveal` writing the source into the slot whose commitment
matches `c`, and arming the deadline. -/
def writeReveal (c source now : Nat) (gm : Game) : Game :=
  let gm1 := if c == gm.player1.commitment
             then { gm with player1 := { gm.player1 with reveal := source } }
             else { gm with player2 := { gm.player2 with reveal := source } }
  { gm1 with deadline := now + FIVE_MINUTES }

/-- `dice::pay_and_clean`: credit the winner with `2*bet`, decrement both
players' `open_games`, erase the loser's account if it became empty, then
erase the game and both offers.  The two unguarded `accounts.find` calls are
modelled as `missingRecord` on failure. -/
def payAndClean (s : DiceState) (g : Game) (wo lo : Offer) : Except Err DiceState :=
  match findAccount s.accounts wo.owner with
  | none => .error .missingRecord
  | some _ =>
    let accounts1 := modifyAccount s.accounts wo.owner (creditWinner g.bet)
    match findAccount accounts1 lo.owner with
    | none => .error .missingRecord
    | some la =>
      let accounts2 := modifyAccount accounts1 lo.owner decGames
      let la' := decGames la
      let accounts3 := if la'.is_empty then eraseAccount accounts2 lo.owner else accounts2
      .ok { offers := eraseOfferById (eraseOfferById s.offers wo.id) lo.id,
            games := eraseGameById s.games g.id,
            global := s.global,
            accounts := accounts3 }

/-- `dice::on(const offerbet&)`. -/
def onOfferbet (s : DiceState) (bet player commitment : Nat) : Except Err DiceState :=
  if bet = 0 then .error .invalidBet
  else if hasOffer s.offers commitment then .error .duplicateCommitment
  else
    match findAccount s.accounts player with
    | none => .error .unknownAccount
    | some acct =>
      let newId := availablePrimaryKey s.offers
      let newOffer : Offer := ⟨newId, player, bet, commitment, 0⟩
      let offers1 := s.offers ++ [newOffer]
      let matched :=
        match betLowerBound offers1 bet with
        | none => none
        | some m => if m.bet == bet && m.owner != player then some m else none
      match matched with
      | none =>
        if acct.eos_balance < bet then .error .insufficientFunds
        else .ok { s with
          offers := offers1,
          accounts := modifyAccount s.accounts player (debitQueued bet) }
      | some m =>
        let next := (match s.global with | none => 0 | some n => n) + 1
        let newGame : Game := ⟨next, bet, 0, ⟨m.commitment, 0⟩, ⟨commitment, 0⟩⟩
        let offers2 := modifyOfferById offers1 m.id (markMatched next)
        let offers3 := modifyOfferById offers2 newId (markMatched next)
        match findAccount s.accounts m.owner with
        | none => .error .missingRecord
        | some _ =>
          let accounts1 := modifyAccount s.accounts m.owner matchedOwnerUpd
          if acct.eos_balance < bet then .error .insufficientFunds
          else .ok
            { offers := offers3,
              games := s.games ++ [newGame],
              global := some next,
              accounts := modifyAccount accounts1 player (debitMatched bet) }

/-- `dice::on(const canceloffer&)`. -/
def onCancelOffer (s : DiceState) (commitment : Nat) : Except Err DiceState :=
  match findOfferByCommitment s.offers commitment with
  | none => .error .offerNotFound
  | some off =>
    if off.gameid ≠ 0 then .error .unableToCancel
    else
      match findAccount s.accounts off.owner with
      | none => .error .missingRecord
      | some _ =>
        .ok { s with
          accounts := modifyAccount s.accounts off.owner (refundCancel off.bet),
          offers := eraseOfferById s.offers off.id }

/-- `dice::on(const reveal&)`.  `sha` abstracts `assert_sha256` on the revealed
source; `gd` abstracts sha256 over the concatenated stored player slots,
returning `(digest.hash[0], digest.hash[1])`. -/
def onReveal (sha : Nat → Nat) (gd : Player → Player → Nat × Nat)
    (s : DiceState) (now commitment source : Nat) : Except Err DiceState :=
  if sha source ≠ commitment then .error .invalidReveal
  else
    match findOfferByCommitment s.offers commitment with
    | none => .error .offerNotFound
    | some off =>
      if off.gameid = 0 then .error .unableToReveal
      else
        match findGame s.games off.gameid with
        | none => .error .missingRecord
        | some g =>
          let cp := if g.player1.commitment == commitment
                    then (g.player1, g.player2) else (g.player2, g.player1)
          let curr := cp.1
          let prev := cp.2
          if curr.reveal ≠ 0 then .error .alreadyRevealed
          else if prev.reveal ≠ 0 then
            let d := gd g.player1 g.player2
            match findOfferByCommitment s.offers prev.commitment with
            | none => .error .missingRecord
            | some prevOff =>
              if d.2 < d.1 then payAndClean s g prevOff off
              else payAndClean s g off prevOff
          else
            .ok { s with
              games := modifyGameById s.games g.id (writeReveal curr.commitment source now) }

/-- `dice::on(const claimexpired&)`.  The two commitment-index `find`s are
unguarded in the source (their results are dereferenced in both branches), so
a failed find is `missingRecord`. -/
def onClaimExpired (s : DiceState) (now gameid : Nat) : Except Err DiceState :=
  match findGame s.games gameid with
  | none => .error .gameNotFound
  | some g =>
    if g.deadline = 0 ∨ ¬ (g.deadline < now) then .error .gameNotExpired
    else
      match findOfferByCommitment s.offers g.player1.commitment,
            findOfferByCommitment s.offers g.player2.commitment with
      | some o1, some o2 =>
        if g.player1.reveal ≠ 0 then
          if g.player2.reveal ≠ 0 then .error .gameError
          else payAndClean s g o1 o2
        else
          if g.player1.reveal ≠ 0 then .error .gameError
          else payAndClean s g o2 o1
      | _, _ => .error .missingRecord

/-- `dice::on(const deposit&)`: create the account if absent, then credit the
externally transferred amount. -/
def onDeposit (s : DiceState) (from_ amount : Nat) : Except Err DiceState :=
  let accounts1 :=
    match findAccount s.accounts from_ with
    | none => s.accounts ++ [⟨from_, 0, 0, 0⟩]
    | some _ => s.accounts
  .ok { s with accounts := modifyAccount accounts1 from_ (creditDeposit amount) }

/-- `dice::on(const withdraw&)`: debit (token subtraction asserts on
underflow), transfer out, erase the account if it became empty. -/
def onWithdraw (s : DiceState) (toA amount : Nat) : Except Err DiceState :=
  match findAccount s.accounts toA with
  | none => .error .unknownAccount
  | some acct =>
    if acct.eos_balance < amount then .error .insufficientFunds
    else
      let acct' := debitWithdraw amount acct
      let accounts1 := modifyAccount s.accounts toA (debitWithdraw amount)
      .ok { s with accounts := if acct'.is_empty then eraseAccount accounts1 toA else accounts1 }

/-- The states reachable through the six entry points from the empty tables,
for a fixed hash collaborator `(sha, gd)`.  `now` is an arbitrary input of
each call (time only moves through the clock collaborator). -/
inductive Reachable (sha : Nat → Nat) (gd : Player → Player → Nat × Nat) : DiceState → Prop where
  | init : Reachable sha gd ⟨[], [], none, []⟩
  | offerbet {s s' bet player c} : Reachable sha gd s →
      onOfferbet s bet player c = .ok s' → Reachable sha gd s'
  | cancel {s s' c} : Reachable sha gd s →
      onCancelOffer s c = .ok s' → Reachable sha gd s'
  | reveal {s s' now c src} : Reachable sha gd s →
      onReveal sha gd s now c src = .ok s' → Reachable sha gd s'
  | claimexp {s s' now gid} : Reachable sha gd s →
      onClaimExpired s now gid = .ok s' → Reachable sha gd s'
  | deposit {s s' f amt} : Reachable sha gd s →
      onDeposit s f amt = .ok s' → Reachable sha gd s'
  | withdraw {s s' toA amt} : Reachable sha gd s →
      onWithdraw s toA amt = .ok s' → Reachable sha gd s'

/-! ### Generic keyed-list lemmas -/

/-- A key-preserving row update leaves the key column unchanged. -/
theorem map_key_keyedMap {α : Type} (key : α → Nat) (k : Nat) (f : α → α)
    (hf : ∀ x, key (f x) = key x) (l : List α) :
    (l.map (fun x => if key x == k then f x else x)).map key = l.map key := by
  rw [List.map_map]
  apply List.map_congr_left
  intro x _
  by_cases h : (key x == k) = true
  · simp only [Function.comp_apply, if_pos h, hf]
  · simp only [Function.comp_apply, if_neg h]

/-- `find?` by key commutes with a key-preserving row update. -/
theorem find?_keyedMap {α : Type} (key : α → Nat) (k k' : Nat) (f : α → α)
    (hf : ∀ x, key (f x) = key x) (l : List α) :
    (l.map (fun x => if key x == k then f x else x)).find? (fun x => key x == k') =
      (l.find? (fun x => key x == k')).map (fun x => if key x == k then f x else x) := by
  rw [List.find?_map]
  have hcomp : ((fun x => key x == k') ∘ fun x => if (key x == k) = true then f x else x)
      = (fun x => key x == k') := by
    funext x
    by_cases h : (key x == k) = true
    · simp only [Function.comp_apply, if_pos h, hf]
    · simp only [Function.comp_apply, if_neg h]
  rw [hcomp]

/-- `find?` for a key different from the erased one is unaffected. -/
theorem find?_keyedFilter_ne {α : Type} (key : α → Nat) (k k' : Nat) (h : k' ≠ k) (l : List α) :
    (l.filter (fun x => key x != k)).find? (fun x => key x == k') =
      l.find? (fun x => key x == k') := by
  rw [List.find?_filter]
  congr 1
  funext x
  by_cases hx : key x = k'
  · simp [hx, h]
  · simp [hx]

/-- `find?` for the erased key yields nothing. -/
theorem find?_keyedFilter_self {α : Type} (key : α → Nat) (k : Nat) (l : List α) :
    (l.filter (fun x => key x != k)).find? (fun x => key x == k) = none := by
  rw [List.find?_eq_none]
  intro x hx
  simp only [List.mem_filter, bne_iff_ne] at hx
  simp [hx.2]

/-- Two rows of a list with a duplicate-free key column and equal keys are
equal. -/
theorem key_inj {α : Type} (key : α → Nat) {l : List α} (hN : (l.map key).Nodup)
    {x y : α} (hx : x ∈ l) (hy : y ∈ l) (h : key x = key y) : x = y :=
  List.inj_on_of_nodup_map hN hx hy h

/-- Under a duplicate-free key column, `find?` by key returns the member
carrying that key. -/
theorem find?_keyed_of_mem {α : Type} (key : α → Nat) {l : List α}
    (hN : (l.map key).Nodup) {o : α} (ho : o ∈ l) (k : Nat) (hk : key o = k) :
    l.find? (fun x => key x == k) = some o := by
  cases h : l.find? (fun x => key x == k) with
  | none =>
    rw [List.find?_eq_none] at h
    exact absurd (by simp [hk]) (h o ho)
  | some x =>
    have hmem := List.mem_of_find?_eq_some h
    have hpx := List.find?_some h
    simp only [beq_iff_eq] at hpx
    rw [key_inj key hN hmem ho (hpx.trans hk.symm)]

/-- Counting with predicates that agree everywhere except possibly at a single
member `o` of a duplicate-free list. -/
theorem countP_congr_except {α : Type} {l : List α} (hN : l.Nodup) {o : α} (ho : o ∈ l)
    (p q : α → Bool) (hoth : ∀ x ∈ l, x ≠ o → q x = p x) :
    l.countP q + (if p o then 1 else 0) = l.countP p + (if q o then 1 else 0) := by
  induction l with
  | nil => cases ho
  | cons a t ih =>
    rw [List.countP_cons, List.countP_cons]
    rcases List.mem_cons.mp ho with rfl | hot
    · have hnot : o ∉ t := (List.nodup_cons.mp hN).1
      have : t.countP q = t.countP p := by
        apply List.countP_congr
        intro x hx
        rw [hoth x (List.mem_cons_of_mem _ hx) (fun hxo => hnot (hxo ▸ hx))]
      rw [this]
      omega
    · have ha : a ≠ o := fun h => (List.nodup_cons.mp hN).1 (h ▸ hot)
      have hqa : q a = p a := hoth a (List.mem_cons_self a t) ha
      have := ih (List.nodup_cons.mp hN).2 hot
        (fun x hx hxo => hoth x (List.mem_cons_of_mem _ hx) hxo)
      rw [hqa]
      omega

/-- If no row carries the key, a keyed update is the identity. -/
theorem keyedMap_id {α : Type} (key : α → Nat) (k : Nat) (f : α → α) (l : List α)
    (h : ∀ x ∈ l, key x ≠ k) :
    l.map (fun x => if key x == k then f x else x) = l := by
  have : l.map (fun x => if key x == k then f x else x) = l.map id := by
    apply List.map_congr_left
    intro x hx
    simp [h x hx]
  rw [this, List.map_id]

/-! ### `available_primary_key` freshness -/

theorem le_foldl_max (l : List Offer) (init : Nat) :
    init ≤ l.foldl (fun m o => max m (o.id + 1)) init := by
  induction l generalizing init with
  | nil => exact Nat.le_refl _
  | cons a t ih => exact Nat.le_trans (Nat.le_max_left _ _) (ih _)

theorem foldl_max_of_mem {l : List Offer} {o : Offer} (ho : o ∈ l) (init : Nat) :
    o.id + 1 ≤ l.foldl (fun m x => max m (x.id + 1)) init := by
  induction l generalizing init with
  | nil => cases ho
  | cons a t ih =>
    rcases List.mem_cons.mp ho with rfl | hot
    · exact Nat.le_trans (Nat.le_max_right _ _) (le_foldl_max t _)
    · exact ih hot _

theorem lt_availablePrimaryKey {l : List Offer} {o : Offer} (ho : o ∈ l) :
    o.id < availablePrimaryKey l :=
  foldl_max_of_mem ho 0

/-! ### `betLowerBound` is the least index entry at or above the amount -/

theorem betKeyLt_iff {o m : Offer} :
    betKeyLt o m = true ↔ (o.bet < m.bet ∨ (o.bet = m.bet ∧ o.id < m.id)) := by
  simp [betKeyLt]

theorem betLowerBound_spec (l : List Offer) (a : Nat) :
    (betLowerBound l a = none → ∀ o ∈ l, o.bet < a) ∧
    (∀ m, betLowerBound l a = some m →
      m ∈ l ∧ a ≤ m.bet ∧ ∀ o ∈ l, a ≤ o.bet → betKeyLt o m = false) := by
  induction l with
  | nil =>
    refine ⟨fun _ o ho => absurd ho (List.not_mem_nil o), fun m hm => ?_⟩
    simp [betLowerBound] at hm
  | cons x t ih =>
    obtain ⟨ihn, ihs⟩ := ih
    by_cases hx : a ≤ x.bet
    · cases ht : betLowerBound t a with
      | none =>
        constructor
        · intro hnone
          simp only [betLowerBound, ht, if_pos hx] at hnone
          exact Option.noConfusion hnone
        · intro m hm
          simp only [betLowerBound, ht, if_pos hx] at hm
          obtain rfl := Option.some.inj hm
          refine ⟨List.mem_cons_self _ _, hx, ?_⟩
          intro o ho hob
          rcases List.mem_cons.mp ho with rfl | hot
          · rw [Bool.eq_false_iff, Ne, betKeyLt_iff]
            omega
          · exact absurd hob (Nat.not_le.mpr (ihn ht o hot))
      | some m' =>
        obtain ⟨hmem, hle, hmin⟩ := ihs m' ht
        constructor
        · intro hnone
          simp only [betLowerBound, ht, if_pos hx] at hnone
          split at hnone <;> cases hnone
        · intro m hm
          simp only [betLowerBound, ht, if_pos hx] at hm
          split at hm <;> rename_i hk
          · obtain rfl := Option.some.inj hm
            refine ⟨List.mem_cons_self _ _, hx, ?_⟩
            intro o ho hob
            rcases List.mem_cons.mp ho with rfl | hot
            · rw [Bool.eq_false_iff, Ne, betKeyLt_iff]
              omega
            · have hom' := hmin o hot hob
              rw [betKeyLt_iff] at hk
              rw [Bool.eq_false_iff, Ne, betKeyLt_iff] at hom' ⊢
              omega
          · obtain rfl := Option.some.inj hm
            refine ⟨List.mem_cons_of_mem _ hmem, hle, ?_⟩
            intro o ho hob
            rcases List.mem_cons.mp ho with rfl | hot
            · exact Bool.eq_false_iff.mpr hk
            · exact hmin o hot hob
    · cases ht : betLowerBound t a with
      | none =>
        constructor
        · intro _ o ho
          rcases List.mem_cons.mp ho with rfl | hot
          · omega
          · exact ihn ht o hot
        · intro m hm
          simp only [betLowerBound, ht, if_neg hx] at hm
          exact Option.noConfusion hm
      | some m' =>
        obtain ⟨hmem, hle, hmin⟩ := ihs m' ht
        constructor
        · intro hnone
          simp only [betLowerBound, ht, if_neg hx] at hnone
          exact Option.noConfusion hnone
        · intro m hm
          simp only [betLowerBound, ht, if_neg hx] at hm
          obtain rfl := Option.some.inj hm
          refine ⟨List.mem_cons_of_mem _ hmem, hle, ?_⟩
          intro o ho hob
          rcases List.mem_cons.mp ho with rfl | hot
          · exact absurd hob hx
          · exact hmin o hot hob

theorem betLowerBound_mem {l : List Offer} {a : Nat} {m : Offer}
    (h : betLowerBound l a = some m) : m ∈ l :=
  ((betLowerBound_spec l a).2 m h).1

theorem betLowerBound_le {l : List Offer} {a : Nat} {m : Offer}
    (h : betLowerBound l a = some m) : a ≤ m.bet :=
  ((betLowerBound_spec l a).2 m h).2.1

theorem betLowerBound_min {l : List Offer} {a : Nat} {m : Offer}
    (h : betLowerBound l a = some m) :
    ∀ o ∈ l, a ≤ o.bet → betKeyLt o m = false :=
  ((betLowerBound_spec l a).2 m h).2.2

theorem betLowerBound_isSome {l : List Offer} {a : Nat} {o : Offer}
    (ho : o ∈ l) (hb : a ≤ o.bet) : ∃ m, betLowerBound l a = some m := by
  cases h : betLowerBound l a with
  | none => exact absurd hb (Nat.not_le.mpr ((betLowerBound_spec l a).1 h o ho))
  | some m => exact ⟨m, rfl⟩

/-! ### Table-level corollaries of the keyed-list lemmas -/

theorem findAccount_modifyAccount (l : List Account) (w w' : Nat) (f : Account → Account)
    (hf : ∀ a, (f a).owner = a.owner) :
    findAccount (modifyAccount l w f) w' =
      (findAccount l w').map (fun a => if a.owner == w then f a else a) :=
  find?_keyedMap Account.owner w w' f hf l

theorem findAccount_some {l : List Account} {w : Nat} {a : Account}
    (h : findAccount l w = some a) : a.owner = w := by
  unfold findAccount at h
  have h2 := List.find?_some h
  simpa using h2

theorem findAccount_mem {l : List Account} {w : Nat} {a : Account}
    (h : findAccount l w = some a) : a ∈ l := by
  unfold findAccount at h
  exact List.mem_of_find?_eq_some h

theorem findOfferByCommitment_some {l : List Offer} {c : Nat} {o : Offer}
    (h : findOfferByCommitment l c = some o) : o.commitment = c := by
  unfold findOfferByCommitment at h
  have h2 := List.find?_some h
  simpa using h2

theorem findOfferByCommitment_mem {l : List Offer} {c : Nat} {o : Offer}
    (h : findOfferByCommitment l c = some o) : o ∈ l := by
  unfold findOfferByCommitment at h
  exact List.mem_of_find?_eq_some h

theorem findGame_some {l : List Game} {i : Nat} {g : Game}
    (h : findGame l i = some g) : g.id = i := by
  unfold findGame at h
  have h2 := List.find?_some h
  simpa using h2

theorem findGame_mem {l : List Game} {i : Nat} {g : Game}
    (h : findGame l i = some g) : g ∈ l := by
  unfold findGame at h
  exact List.mem_of_find?_eq_some h

theorem findAccount_modifyAccount_self {l : List Account} {w : Nat} {a : Account}
    (f : Account → Account) (hf : ∀ x, (f x).owner = x.owner)
    (hfind : findAccount l w = some a) :
    findAccount (modifyAccount l w f) w = some (f a) := by
  rw [findAccount_modifyAccount l w w f hf, hfind]
  have ha : (a.owner == w) = true := by simp [findAccount_some hfind]
  simp only [Option.map_some', if_pos ha]

theorem findAccount_modifyAccount_ne {l : List Account} {w w' : Nat}
    (f : Account → Account) (hf : ∀ x, (f x).owner = x.owner) (hne : w' ≠ w) :
    findAccount (modifyAccount l w f) w' = findAccount l w' := by
  rw [findAccount_modifyAccount l w w' f hf]
  cases hfind : findAccount l w' with
  | none => rfl
  | some a =>
    have ha := findAccount_some hfind
    rw [Option.map_some', if_neg (by simp only [beq_iff_eq]; omega)]

theorem findAccount_eraseAccount_ne {l : List Account} {w w' : Nat} (hne : w' ≠ w) :
    findAccount (eraseAccount l w) w' = findAccount l w' :=
  find?_keyedFilter_ne Account.owner w w' hne l

theorem findAccount_eraseAccount_self (l : List Account) (w : Nat) :
    findAccount (eraseAccount l w) w = none :=
  find?_keyedFilter_self Account.owner w l

theorem map_owner_modifyAccount (l : List Account) (w : Nat) (f : Account → Account)
    (hf : ∀ a, (f a).owner = a.owner) :
    (modifyAccount l w f).map Account.owner = l.map Account.owner :=
  map_key_keyedMap Account.owner w f hf l

theorem find?_keyedMap2 {α : Type} (keyA keyB : α → Nat) (k k' : Nat) (f : α → α)
    (hf : ∀ x, keyA (f x) = keyA x) (l : List α) :
    (l.map (fun x => if keyB x == k then f x else x)).find? (fun x => keyA x == k') =
      (l.find? (fun x => keyA x == k')).map (fun x => if keyB x == k then f x else x) := by
  rw [List.find?_map]
  have hcomp : ((fun x => keyA x == k') ∘ fun x => if (keyB x == k) = true then f x else x)
      = (fun x => keyA x == k') := by
    funext x
    by_cases h : (keyB x == k) = true
    · simp only [Function.comp_apply, if_pos h, hf]
    · simp only [Function.comp_apply, if_neg h]
  rw [hcomp]

theorem findOfferByCommitment_modifyOfferById (l : List Offer) (i c : Nat)
    (f : Offer → Offer) (hf : ∀ o, (f o).commitment = o.commitment) :
    findOfferByCommitment (modifyOfferById l i f) c =
      (findOfferByCommitment l c).map (fun o => if o.id == i then f o else o) :=
  find?_keyedMap2 Offer.commitment Offer.id i c f hf l

theorem findGame_modifyGameById (l : List Game) (i i' : Nat) (f : Game → Game)
    (hf : ∀ g, (f g).id = g.id) :
    findGame (modifyGameById l i f) i' =
      (findGame l i').map (fun g => if g.id == i then f g else g) :=
  find?_keyedMap Game.id i i' f hf l

theorem findGame_eraseGameById_ne {l : List Game} {i i' : Nat} (hne : i' ≠ i) :
    findGame (eraseGameById l i) i' = findGame l i' :=
  find?_keyedFilter_ne Game.id i i' hne l

theorem findGame_eraseGameById_self (l : List Game) (i : Nat) :
    findGame (eraseGameById l i) i = none :=
  find?_keyedFilter_self Game.id i l

theorem map_id_modifyOfferById (l : List Offer) (i : Nat) (f : Offer → Offer)
    (hf : ∀ o, (f o).id = o.id) :
    (modifyOfferById l i f).map Offer.id = l.map Offer.id :=
  map_key_keyedMap Offer.id i f hf l

theorem map_id_modifyGameById (l : List Game) (i : Nat) (f : Game → Game)
    (hf : ∀ g, (f g).id = g.id) :
    (modifyGameById l i f).map Game.id = l.map Game.id :=
  map_key_keyedMap Game.id i f hf l

/-! ### Counting helpers -/

/-- Open (unmatched) offers owned by `w`. -/
def openOffersOf (l : List Offer) (w : Nat) : Nat :=
  l.countP (fun o => o.owner == w && o.gameid == 0)

/-- Matched offers owned by `w` (each matched offer sits in exactly one game). -/
def openGamesOf (l : List Offer) (w : Nat) : Nat :=
  l.countP (fun o => o.owner == w && o.gameid != 0)

theorem countP_modifyOfferById (l : List Offer) {o : Offer} (hN : (l.map Offer.id).Nodup)
    (ho : o ∈ l) (f : Offer → Offer) (hf : ∀ x, (f x).id = x.id) (p : Offer → Bool) :
    (modifyOfferById l o.id f).countP p + (if p o then 1 else 0) =
      l.countP p + (if p (f o) then 1 else 0) := by
  unfold modifyOfferById
  rw [List.countP_map]
  have h := countP_congr_except (List.Nodup.of_map _ hN) ho p
    (p ∘ fun x => if x.id == o.id then f x else x) ?_
  · beta_reduce at h
    have ho2 : (p ∘ fun x => if x.id == o.id then f x else x) o = p (f o) := by
      simp
    rw [ho2] at h
    omega
  · intro x hx hxo
    have hne : x.id ≠ o.id := fun he => hxo (key_inj Offer.id hN hx ho he)
    simp only [Function.comp_apply]
    rw [if_neg (by simpa using hne)]

theorem countP_eraseOfferById (l : List Offer) {o : Offer} (hN : (l.map Offer.id).Nodup)
    (ho : o ∈ l) (p : Offer → Bool) :
    (eraseOfferById l o.id).countP p + (if p o then 1 else 0) = l.countP p := by
  unfold eraseOfferById
  rw [List.countP_filter]
  have h := countP_congr_except (List.Nodup.of_map _ hN) ho p
    (fun x => p x && (x.id != o.id)) ?_
  · beta_reduce at h
    have ho2 : (p o && (o.id != o.id)) = false := by simp
    rw [ho2] at h
    simp only [Bool.false_eq_true, if_false] at h
    omega
  · intro x hx hxo
    have hne : x.id ≠ o.id := fun he => hxo (key_inj Offer.id hN hx ho he)
    simp [hne]

theorem two_le_countP {α : Type} {l : List α} {p : α → Bool} {a b : α}
    (ha : a ∈ l) (hb : b ∈ l) (hab : a ≠ b) (hpa : p a = true) (hpb : p b = true) :
    2 ≤ l.countP p := by
  induction l with
  | nil => cases ha
  | cons x t ih =>
    rcases List.mem_cons.mp ha with rfl | hat
    · have hbt : b ∈ t := by
        rcases List.mem_cons.mp hb with rfl | h
        · exact absurd rfl hab
        · exact h
      rw [List.countP_cons, if_pos hpa]
      have : 1 ≤ t.countP p := List.countP_pos_iff.mpr ⟨b, hbt, hpb⟩
      omega
    · rcases List.mem_cons.mp hb with rfl | hbt
      · rw [List.countP_cons, if_pos hpb]
        have : 1 ≤ t.countP p := List.countP_pos_iff.mpr ⟨a, hat, hpa⟩
        omega
      · have := ih hat hbt
        rw [List.countP_cons]
        omega

theorem one_le_countP {α : Type} {l : List α} {p : α → Bool} {a : α}
    (ha : a ∈ l) (hpa : p a = true) : 1 ≤ l.countP p :=
  List.countP_pos_iff.mpr ⟨a, ha, hpa⟩

/-! ### The reachable-state invariant -/

/-- The inductive invariant of the contract state. -/
structure Inv (s : DiceState) : Prop where
  offersIdNodup : (s.offers.map Offer.id).Nodup
  commNodup : (s.offers.map Offer.commitment).Nodup
  gamesIdNodup : (s.games.map Game.id).Nodup
  ownersNodup : (s.accounts.map Account.owner).Nodup
  gameBound : ∀ g ∈ s.games, ∃ n, s.global = some n ∧ 1 ≤ g.id ∧ g.id ≤ n
  offerGame : ∀ o ∈ s.offers, o.gameid ≠ 0 →
      ∃ g ∈ s.games, g.id = o.gameid ∧
        (o.commitment = g.player1.commitment ∨ o.commitment = g.player2.commitment)
  matchedBet : ∀ o ∈ s.offers, o.gameid ≠ 0 → o.bet = 0
  gameCommNe : ∀ g ∈ s.games, g.player1.commitment ≠ g.player2.commitment
  gameOffer1 : ∀ g ∈ s.games, ∃ o ∈ s.offers,
      o.commitment = g.player1.commitment ∧ o.gameid = g.id
  gameOffer2 : ∀ g ∈ s.games, ∃ o ∈ s.offers,
      o.commitment = g.player2.commitment ∧ o.gameid = g.id
  gameOwnersNe : ∀ g ∈ s.games, ∀ o1 ∈ s.offers, ∀ o2 ∈ s.offers,
      o1.commitment = g.player1.commitment → o2.commitment = g.player2.commitment →
      o1.owner ≠ o2.owner
  offerAcct : ∀ o ∈ s.offers, ∃ a ∈ s.accounts, a.owner = o.owner
  counterOffers : ∀ a ∈ s.accounts, openOffersOf s.offers a.owner ≤ a.open_offers
  counterGames : ∀ a ∈ s.accounts, openGamesOf s.offers a.owner ≤ a.open_games
  revealState : ∀ g ∈ s.games,
      (g.deadline = 0 → g.player1.reveal = 0 ∧ g.player2.reveal = 0) ∧
      (g.player1.reveal = 0 ∨ g.player2.reveal = 0)

theorem inv_init : Inv ⟨[], [], none, []⟩ := by
  constructor <;> simp [openOffersOf, openGamesOf]

/-! ### Existence and membership helpers -/

theorem findAccount_isSome {l : List Account} {w : Nat} (h : ∃ a ∈ l, a.owner = w) :
    ∃ x, findAccount l w = some x := by
  rcases h with ⟨a, ha, hw⟩
  cases hf : findAccount l w with
  | none =>
    unfold findAccount at hf
    rw [List.find?_eq_none] at hf
    exact absurd (by simp [hw]) (hf a ha)
  | some x => exact ⟨x, rfl⟩

theorem findOfferByCommitment_isSome {l : List Offer} {c : Nat}
    (h : ∃ o ∈ l, o.commitment = c) :
    ∃ x, findOfferByCommitment l c = some x := by
  rcases h with ⟨o, ho, hc⟩
  cases hf : findOfferByCommitment l c with
  | none =>
    unfold findOfferByCommitment at hf
    rw [List.find?_eq_none] at hf
    exact absurd (by simp [hc]) (hf o ho)
  | some x => exact ⟨x, rfl⟩

theorem findGame_isSome {l : List Game} {i : Nat} (h : ∃ g ∈ l, g.id = i) :
    ∃ x, findGame l i = some x := by
  rcases h with ⟨g, hg, hi⟩
  cases hf : findGame l i with
  | none =>
    unfold findGame at hf
    rw [List.find?_eq_none] at hf
    exact absurd (by simp [hi]) (hf g hg)
  | some x => exact ⟨x, rfl⟩

theorem mem_eraseOfferById {l : List Offer} {i : Nat} {o : Offer} :
    o ∈ eraseOfferById l i ↔ o ∈ l ∧ ¬o.id = i := by
  simp [eraseOfferById]

theorem mem_eraseGameById {l : List Game} {i : Nat} {g : Game} :
    g ∈ eraseGameById l i ↔ g ∈ l ∧ ¬g.id = i := by
  simp [eraseGameById]

theorem mem_eraseAccount {l : List Account} {w : Nat} {a : Account} :
    a ∈ eraseAccount l w ↔ a ∈ l ∧ ¬a.owner = w := by
  simp [eraseAccount]

theorem mem_modifyAccount {l : List Account} {w : Nat} {f : Account → Account} {b : Account} :
    b ∈ modifyAccount l w f ↔ ∃ a ∈ l, (if a.owner == w then f a else a) = b := by
  simp [modifyAccount]

theorem mem_modifyOfferById {l : List Offer} {i : Nat} {f : Offer → Offer} {b : Offer} :
    b ∈ modifyOfferById l i f ↔ ∃ o ∈ l, (if o.id == i then f o else o) = b := by
  simp [modifyOfferById]

theorem mem_modifyGameById {l : List Game} {i : Nat} {f : Game → Game} {b : Game} :
    b ∈ modifyGameById l i f ↔ ∃ g ∈ l, (if g.id == i then f g else g) = b := by
  simp [modifyGameById]

theorem nodup_key_filter {α : Type} (key : α → Nat) {l : List α}
    (hN : (l.map key).Nodup) (p : α → Bool) : ((l.filter p).map key).Nodup :=
  List.Nodup.sublist (List.Sublist.map key (List.filter_sublist l)) hN

/-! ### `pay_and_clean` characterization -/

/-- The explicit successful result of `pay_and_clean` when both accounts exist
and the two owners differ. -/
theorem payAndClean_eq {s : DiceState} {g : Game} {wo lo : Offer} {wa la : Account}
    (hw : findAccount s.accounts wo.owner = some wa)
    (hl : findAccount s.accounts lo.owner = some la)
    (hne : lo.owner ≠ wo.owner) :
    payAndClean s g wo lo = .ok
      { offers := eraseOfferById (eraseOfferById s.offers wo.id) lo.id,
        games := eraseGameById s.games g.id,
        global := s.global,
        accounts :=
          let accounts2 := modifyAccount
            (modifyAccount s.accounts wo.owner (creditWinner g.bet)) lo.owner decGames
          if (decGames la).is_empty then eraseAccount accounts2 lo.owner
          else accounts2 } := by
  have hl1 : findAccount (modifyAccount s.accounts wo.owner (creditWinner g.bet)) lo.owner
      = some la := by
    rw [findAccount_modifyAccount_ne (creditWinner g.bet) (fun _ => rfl) hne]
    exact hl
  simp only [payAndClean, hw, hl1]

/-- `pay_and_clean` cannot hit a missing account when both owners have account
rows. -/
theorem payAndClean_ok {s : DiceState} {g : Game} {wo lo : Offer}
    (hw : ∃ a ∈ s.accounts, a.owner = wo.owner)
    (hl : ∃ a ∈ s.accounts, a.owner = lo.owner)
    (hne : lo.owner ≠ wo.owner) :
    ∃ s', payAndClean s g wo lo = .ok s' := by
  obtain ⟨wa, hwa⟩ := findAccount_isSome hw
  obtain ⟨la, hla⟩ := findAccount_isSome hl
  exact ⟨_, payAndClean_eq hwa hla hne⟩

/-! ### Counter bookkeeping across the table mutations -/

theorem openOffersOf_append (l : List Offer) (o : Offer) (w : Nat) :
    openOffersOf (l ++ [o]) w =
      openOffersOf l w + (if o.owner == w && o.gameid == 0 then 1 else 0) := by
  unfold openOffersOf
  rw [List.countP_append, List.countP_singleton]

theorem openGamesOf_append (l : List Offer) (o : Offer) (w : Nat) :
    openGamesOf (l ++ [o]) w =
      openGamesOf l w + (if o.owner == w && o.gameid != 0 then 1 else 0) := by
  unfold openGamesOf
  rw [List.countP_append, List.countP_singleton]

theorem openOffersOf_erase_matched {l : List Offer} {o : Offer}
    (hN : (l.map Offer.id).Nodup) (ho : o ∈ l) (hg : ¬ o.gameid = 0) (w : Nat) :
    openOffersOf (eraseOfferById l o.id) w = openOffersOf l w := by
  have h := countP_eraseOfferById l hN ho (fun x => x.owner == w && x.gameid == 0)
  beta_reduce at h
  have e : (o.gameid == 0) = false := by simpa using hg
  rw [e, Bool.and_false] at h
  simp only [Bool.false_eq_true, if_false] at h
  unfold openOffersOf
  omega

theorem openGamesOf_erase_matched {l : List Offer} {o : Offer}
    (hN : (l.map Offer.id).Nodup) (ho : o ∈ l) (hg : ¬ o.gameid = 0) (w : Nat) :
    openGamesOf (eraseOfferById l o.id) w + (if o.owner == w then 1 else 0) =
      openGamesOf l w := by
  have h := countP_eraseOfferById l hN ho (fun x => x.owner == w && x.gameid != 0)
  beta_reduce at h
  have e : (o.gameid != 0) = true := by simpa using hg
  rw [e, Bool.and_true] at h
  unfold openGamesOf
  omega

theorem openOffersOf_erase_unmatched {l : List Offer} {o : Offer}
    (hN : (l.map Offer.id).Nodup) (ho : o ∈ l) (hg : o.gameid = 0) (w : Nat) :
    openOffersOf (eraseOfferById l o.id) w + (if o.owner == w then 1 else 0) =
      openOffersOf l w := by
  have h := countP_eraseOfferById l hN ho (fun x => x.owner == w && x.gameid == 0)
  beta_reduce at h
  have e : (o.gameid == 0) = true := by simpa using hg
  rw [e, Bool.and_true] at h
  unfold openOffersOf
  omega

theorem openGamesOf_erase_unmatched {l : List Offer} {o : Offer}
    (hN : (l.map Offer.id).Nodup) (ho : o ∈ l) (hg : o.gameid = 0) (w : Nat) :
    openGamesOf (eraseOfferById l o.id) w = openGamesOf l w := by
  have h := countP_eraseOfferById l hN ho (fun x => x.owner == w && x.gameid != 0)
  beta_reduce at h
  have e : (o.gameid != 0) = false := by simpa using hg
  rw [e, Bool.and_false] at h
  simp only [Bool.false_eq_true, if_false] at h
  unfold openGamesOf
  omega

theorem openOffersOf_markMatched {l : List Offer} {o : Offer}
    (hN : (l.map Offer.id).Nodup) (ho : o ∈ l) (gid : Nat) (hgid : ¬ gid = 0) (w : Nat) :
    openOffersOf (modifyOfferById l o.id (markMatched gid)) w +
      (if o.owner == w && o.gameid == 0 then 1 else 0) = openOffersOf l w := by
  have h := countP_modifyOfferById l hN ho (markMatched gid) (fun _ => rfl)
    (fun x => x.owner == w && x.gameid == 0)
  beta_reduce at h
  have e : (gid == 0) = false := by simpa using hgid
  simp only [markMatched, e, Bool.and_false, Bool.false_eq_true, if_false] at h
  unfold openOffersOf
  omega

theorem openGamesOf_markMatched {l : List Offer} {o : Offer}
    (hN : (l.map Offer.id).Nodup) (ho : o ∈ l) (hg0 : o.gameid = 0)
    (gid : Nat) (hgid : ¬ gid = 0) (w : Nat) :
    openGamesOf (modifyOfferById l o.id (markMatched gid)) w =
      openGamesOf l w + (if o.owner == w then 1 else 0) := by
  have h := countP_modifyOfferById l hN ho (markMatched gid) (fun _ => rfl)
    (fun x => x.owner == w && x.gameid != 0)
  beta_reduce at h
  have e1 : (gid != 0) = true := by simpa using hgid
  have e2 : (o.gameid != 0) = false := by simpa using hg0
  simp only [markMatched, e1, Bool.and_true, e2, Bool.and_false,
    Bool.false_eq_true, if_false] at h
  unfold openGamesOf
  omega

/-- `pay_and_clean` preserves the contract invariant whenever it is invoked on
a game of the table together with its two offers. -/
theorem inv_payAndClean {s : DiceState} {g : Game} {wo lo : Offer} {s' : DiceState}
    (hInv : Inv s) (hg : g ∈ s.games)
    (hwo : wo ∈ s.offers) (hlo : lo ∈ s.offers)
    (hwog : wo.gameid = g.id) (hlog : lo.gameid = g.id)
    (hcomm : (wo.commitment = g.player1.commitment ∧ lo.commitment = g.player2.commitment) ∨
             (wo.commitment = g.player2.commitment ∧ lo.commitment = g.player1.commitment))
    (hok : payAndClean s g wo lo = .ok s') : Inv s' := by
  obtain ⟨n, hglob, hgid1, hgidn⟩ := hInv.gameBound g hg
  have hown : wo.owner ≠ lo.owner := by
    rcases hcomm with ⟨h1, h2⟩ | ⟨h1, h2⟩
    · exact hInv.gameOwnersNe g hg wo hwo lo hlo h1 h2
    · exact (hInv.gameOwnersNe g hg lo hlo wo hwo h2 h1).symm
  have hwlo : wo ≠ lo := fun h => hown (by rw [h])
  have hidne : wo.id ≠ lo.id := fun h =>
    hwlo (key_inj Offer.id hInv.offersIdNodup hwo hlo h)
  have hwo_g0 : ¬ wo.gameid = 0 := by omega
  have hlo_g0 : ¬ lo.gameid = 0 := by omega
  have huniq : ∀ o ∈ s.offers, o.gameid = g.id → o = wo ∨ o = lo := by
    intro o ho hogid
    have hne0 : o.gameid ≠ 0 := by omega
    obtain ⟨g2, hg2, hg2id, hcomm2⟩ := hInv.offerGame o ho hne0
    have hgg : g2 = g := key_inj Game.id hInv.gamesIdNodup hg2 hg (by rw [hg2id, hogid])
    subst hgg
    rcases hcomm with ⟨hw1, hl2⟩ | ⟨hw2, hl1⟩
    · rcases hcomm2 with h1 | h2
      · exact Or.inl (key_inj Offer.commitment hInv.commNodup ho hwo (h1.trans hw1.symm))
      · exact Or.inr (key_inj Offer.commitment hInv.commNodup ho hlo (h2.trans hl2.symm))
    · rcases hcomm2 with h1 | h2
      · exact Or.inr (key_inj Offer.commitment hInv.commNodup ho hlo (h1.trans hl1.symm))
      · exact Or.inl (key_inj Offer.commitment hInv.commNodup ho hwo (h2.trans hw2.symm))
  obtain ⟨wa, hwa⟩ := findAccount_isSome (hInv.offerAcct wo hwo)
  obtain ⟨la, hla⟩ := findAccount_isSome (hInv.offerAcct lo hlo)
  rw [payAndClean_eq hwa hla (Ne.symm hown)] at hok
  obtain rfl := Except.ok.inj hok
  have hla_mem := findAccount_mem hla
  have hla_own := findAccount_some hla
  have hN1 : ((eraseOfferById s.offers wo.id).map Offer.id).Nodup :=
    nodup_key_filter _ hInv.offersIdNodup _
  have hlo1 : lo ∈ eraseOfferById s.offers wo.id :=
    mem_eraseOfferById.mpr ⟨hlo, fun h => hidne h.symm⟩
  have hmemO : ∀ o : Offer,
      o ∈ eraseOfferById (eraseOfferById s.offers wo.id) lo.id ↔
      (o ∈ s.offers ∧ ¬o.id = wo.id ∧ ¬o.id = lo.id) := by
    intro o
    rw [mem_eraseOfferById, mem_eraseOfferById]
    tauto
  have hmemG : ∀ g2 : Game, g2 ∈ eraseGameById s.games g.id ↔
      (g2 ∈ s.games ∧ ¬g2.id = g.id) :=
    fun g2 => mem_eraseGameById
  have hsurv : ∀ o ∈ s.offers, ¬o.id = wo.id → ¬o.id = lo.id →
      o ∈ eraseOfferById (eraseOfferById s.offers wo.id) lo.id := by
    intro o ho h1 h2
    exact (hmemO o).mpr ⟨ho, h1, h2⟩
  have hgame_surv : ∀ g2 ∈ s.games, ¬g2.id = g.id → ∀ o ∈ s.offers, o.gameid = g2.id →
      o ∈ eraseOfferById (eraseOfferById s.offers wo.id) lo.id := by
    intro g2 hg2 hg2ne o ho hogid
    refine hsurv o ho ?_ ?_
    · intro hid
      have he : o = wo := key_inj Offer.id hInv.offersIdNodup ho hwo hid
      subst he
      exact hg2ne (by omega)
    · intro hid
      have he : o = lo := key_inj Offer.id hInv.offersIdNodup ho hlo hid
      subst he
      exact hg2ne (by omega)
  have hcOff : ∀ w, openOffersOf (eraseOfferById (eraseOfferById s.offers wo.id) lo.id) w
      = openOffersOf s.offers w := by
    intro w
    rw [openOffersOf_erase_matched hN1 hlo1 hlo_g0 w,
        openOffersOf_erase_matched hInv.offersIdNodup hwo hwo_g0 w]
  have hcGame : ∀ w, openGamesOf (eraseOfferById (eraseOfferById s.offers wo.id) lo.id) w
      + (if lo.owner == w then 1 else 0) + (if wo.owner == w then 1 else 0)
      = openGamesOf s.offers w := by
    intro w
    have h1 := openGamesOf_erase_matched hInv.offersIdNodup hwo hwo_g0 w
    have h2 := openGamesOf_erase_matched hN1 hlo1 hlo_g0 w
    omega
  have hmemA : ∀ b : Account,
      b ∈ modifyAccount (modifyAccount s.accounts wo.owner (creditWinner g.bet))
          lo.owner decGames →
      ∃ a ∈ s.accounts, b.owner = a.owner ∧ b.open_offers = a.open_offers ∧
        ((a.owner = wo.owner ∧ b.open_games = a.open_games - 1) ∨
         (a.owner = lo.owner ∧ b.open_games = a.open_games - 1) ∨
         (a.owner ≠ wo.owner ∧ a.owner ≠ lo.owner ∧ b = a)) := by
    intro b hb
    obtain ⟨b1, hb1, hb1eq⟩ := mem_modifyAccount.mp hb
    obtain ⟨a, ha, haeq⟩ := mem_modifyAccount.mp hb1
    by_cases h1 : (a.owner == wo.owner) = true
    · rw [if_pos h1] at haeq
      simp only [beq_iff_eq] at h1
      have hb1own : b1.owner = a.owner := by rw [← haeq]; rfl
      have h2 : ¬ (b1.owner == lo.owner) = true := by
        simp only [beq_iff_eq]
        rw [hb1own, h1]
        exact hown
      rw [if_neg h2] at hb1eq
      subst hb1eq
      subst haeq
      exact ⟨a, ha, rfl, rfl, Or.inl ⟨h1, rfl⟩⟩
    · rw [if_neg h1] at haeq
      subst haeq
      simp only [beq_iff_eq] at h1
      by_cases h2 : (a.owner == lo.owner) = true
      · rw [if_pos h2] at hb1eq
        simp only [beq_iff_eq] at h2
        subst hb1eq
        exact ⟨a, ha, rfl, rfl, Or.inr (Or.inl ⟨h2, rfl⟩)⟩
      · rw [if_neg h2] at hb1eq
        subst hb1eq
        simp only [beq_iff_eq] at h2
        exact ⟨a, ha, rfl, rfl, Or.inr (Or.inr ⟨h1, h2, rfl⟩)⟩
  have hmemA2 : ∀ b : Account,
      b ∈ (if (decGames la).is_empty then
        eraseAccount (modifyAccount (modifyAccount s.accounts wo.owner
          (creditWinner g.bet)) lo.owner decGames) lo.owner
        else modifyAccount (modifyAccount s.accounts wo.owner
          (creditWinner g.bet)) lo.owner decGames) →
      ∃ a ∈ s.accounts, b.owner = a.owner ∧ b.open_offers = a.open_offers ∧
        ((a.owner = wo.owner ∧ b.open_games = a.open_games - 1) ∨
         (a.owner = lo.owner ∧ b.open_games = a.open_games - 1) ∨
         (a.owner ≠ wo.owner ∧ a.owner ≠ lo.owner ∧ b = a)) := by
    intro b hb
    split at hb
    · exact hmemA b (mem_eraseAccount.mp hb).1
    · exact hmemA b hb
  constructor
  case offersIdNodup =>
    exact nodup_key_filter _ (nodup_key_filter _ hInv.offersIdNodup _) _
  case commNodup =>
    exact nodup_key_filter _ (nodup_key_filter _ hInv.commNodup _) _
  case gamesIdNodup =>
    exact nodup_key_filter _ hInv.gamesIdNodup _
  case ownersNodup =>
    have hbase : ((modifyAccount (modifyAccount s.accounts wo.owner
        (creditWinner g.bet)) lo.owner decGames).map Account.owner).Nodup := by
      rw [map_owner_modifyAccount _ _ decGames (fun _ => rfl),
          map_owner_modifyAccount _ _ (creditWinner g.bet) (fun _ => rfl)]
      exact hInv.ownersNodup
    dsimp only
    split
    · exact nodup_key_filter _ hbase _
    · exact hbase
  case gameBound =>
    intro g2 hg2
    obtain ⟨hg2mem, _⟩ := (hmemG g2).mp hg2
    exact hInv.gameBound g2 hg2mem
  case offerGame =>
    intro o ho hone
    obtain ⟨homem, hnw, hnl⟩ := (hmemO o).mp ho
    obtain ⟨g2, hg2, hg2id, hc2⟩ := hInv.offerGame o homem hone
    have hg2ne : ¬g2.id = g.id := by
      intro he
      have he2 : g2 = g := key_inj Game.id hInv.gamesIdNodup hg2 hg he
      subst he2
      rcases huniq o homem (by omega) with rfl | rfl
      · exact hnw rfl
      · exact hnl rfl
    exact ⟨g2, (hmemG g2).mpr ⟨hg2, hg2ne⟩, hg2id, hc2⟩
  case matchedBet =>
    intro o ho hone
    exact hInv.matchedBet o ((hmemO o).mp ho).1 hone
  case gameCommNe =>
    intro g2 hg2
    exact hInv.gameCommNe g2 ((hmemG g2).mp hg2).1
  case gameOffer1 =>
    intro g2 hg2
    obtain ⟨hg2mem, hg2ne⟩ := (hmemG g2).mp hg2
    obtain ⟨o, ho, hoc, hoid⟩ := hInv.gameOffer1 g2 hg2mem
    exact ⟨o, hgame_surv g2 hg2mem hg2ne o ho hoid, hoc, hoid⟩
  case gameOffer2 =>
    intro g2 hg2
    obtain ⟨hg2mem, hg2ne⟩ := (hmemG g2).mp hg2
    obtain ⟨o, ho, hoc, hoid⟩ := hInv.gameOffer2 g2 hg2mem
    exact ⟨o, hgame_surv g2 hg2mem hg2ne o ho hoid, hoc, hoid⟩
  case gameOwnersNe =>
    intro g2 hg2 o1 ho1 o2 ho2 hc1 hc2
    exact hInv.gameOwnersNe g2 ((hmemG g2).mp hg2).1 o1 ((hmemO o1).mp ho1).1
      o2 ((hmemO o2).mp ho2).1 hc1 hc2
  case offerAcct =>
    intro o ho
    obtain ⟨homem, hnw, hnl⟩ := (hmemO o).mp ho
    obtain ⟨a, ha, haown⟩ := hInv.offerAcct o homem
    dsimp only
    have hstep : ∀ l2 : List Account, a ∈ l2 →
        ∀ f : Account → Account, (∀ x, (f x).owner = x.owner) → ∀ w,
        ∃ b ∈ modifyAccount l2 w f, b.owner = a.owner := by
      intro l2 hal2 f hf w
      refine ⟨if a.owner == w then f a else a, mem_modifyAccount.mpr ⟨a, hal2, rfl⟩, ?_⟩
      by_cases hcase : (a.owner == w) = true
      · rw [if_pos hcase]; exact hf a
      · rw [if_neg hcase]
    obtain ⟨b1, hb1, hb1own⟩ := hstep s.accounts ha (creditWinner g.bet) (fun _ => rfl) wo.owner
    have hb1in : a ∈ modifyAccount s.accounts wo.owner (creditWinner g.bet) → True := fun _ =>
      trivial
    clear hb1in
    have hstep2 : ∃ b ∈ modifyAccount (modifyAccount s.accounts wo.owner
        (creditWinner g.bet)) lo.owner decGames, b.owner = a.owner := by
      refine ⟨if b1.owner == lo.owner then decGames b1 else b1,
        mem_modifyAccount.mpr ⟨b1, hb1, rfl⟩, ?_⟩
      by_cases hcase : (b1.owner == lo.owner) = true
      · rw [if_pos hcase]; exact hb1own
      · rw [if_neg hcase]; exact hb1own
    obtain ⟨b2, hb2, hb2own⟩ := hstep2
    have hb2own2 : b2.owner = o.owner := by rw [hb2own, haown]
    split
    · rename_i hempty
      refine ⟨b2, mem_eraseAccount.mpr ⟨hb2, ?_⟩, hb2own2⟩
      intro hbo
      have hoown : o.owner = lo.owner := by rw [← hb2own2, hbo]
      have hempty2 : la.eos_balance = 0 ∧ la.open_offers = 0 ∧ la.open_games - 1 = 0 := by
        simpa [decGames, Account.is_empty, and_assoc] using hempty
      have hcountOff := hInv.counterOffers la hla_mem
      have hcountGame := hInv.counterGames la hla_mem
      rw [hla_own] at hcountOff hcountGame
      by_cases hog : o.gameid = 0
      · have hone : 1 ≤ openOffersOf s.offers lo.owner := by
          apply one_le_countP homem
          simp [hoown, hog]
        omega
      · have hlow : 2 ≤ openGamesOf s.offers lo.owner := by
          apply two_le_countP homem hlo
          · intro he
            subst he
            exact hnl rfl
          · simp [hoown, hog]
          · simp [hlo_g0]
        omega
    · exact ⟨b2, hb2, hb2own2⟩
  case counterOffers =>
    intro b hb
    dsimp only at hb ⊢
    obtain ⟨a, ha, hbown, hboff, _⟩ := hmemA2 b hb
    rw [hbown, hboff, hcOff]
    exact hInv.counterOffers a ha
  case counterGames =>
    intro b hb
    dsimp only at hb ⊢
    obtain ⟨a, ha, hbown, _, hcase⟩ := hmemA2 b hb
    have hcount := hInv.counterGames a ha
    have hc := hcGame a.owner
    rcases hcase with ⟨hwoa, hbg⟩ | ⟨hloa, hbg⟩ | ⟨hnw2, hnl2, rfl⟩
    · have e1 : (wo.owner == a.owner) = true := by simp [hwoa]
      rw [e1] at hc
      rw [hbown, hbg]
      simp only [if_true] at hc
      omega
    · have e1 : (lo.owner == a.owner) = true := by simp [hloa]
      rw [e1] at hc
      rw [hbown, hbg]
      simp only [if_true] at hc
      omega
    · have e1 : (wo.owner == b.owner) = false := by
        simp only [beq_eq_false_iff_ne]
        exact fun h => hnw2 h.symm
      have e2 : (lo.owner == b.owner) = false := by
        simp only [beq_eq_false_iff_ne]
        exact fun h => hnl2 h.symm
      rw [e1, e2] at hc
      rw [hbown]
      simp only [Bool.false_eq_true, if_false] at hc
      omega
  case revealState =>
    intro g2 hg2
    exact hInv.revealState g2 ((hmemG g2).mp hg2).1

/-! ### Per-operation helpers -/

theorem exists_owner_modifyAccount {l : List Account} {w0 : Nat}
    (h : ∃ a ∈ l, a.owner = w0) (w : Nat) (f : Account → Account)
    (hf : ∀ x, (f x).owner = x.owner) :
    ∃ b ∈ modifyAccount l w f, b.owner = w0 := by
  rcases h with ⟨a, ha, rfl⟩
  refine ⟨if a.owner == w then f a else a, mem_modifyAccount.mpr ⟨a, ha, rfl⟩, ?_⟩
  by_cases hcase : (a.owner == w) = true
  · rw [if_pos hcase]; exact hf a
  · rw [if_neg hcase]

theorem mem_modifyAccount_elim {l : List Account} {w : Nat} {f : Account → Account} {b : Account}
    (hb : b ∈ modifyAccount l w f) :
    ∃ a ∈ l, (a.owner = w ∧ b = f a) ∨ (a.owner ≠ w ∧ b = a) := by
  obtain ⟨a, ha, haeq⟩ := mem_modifyAccount.mp hb
  by_cases hcase : (a.owner == w) = true
  · rw [if_pos hcase] at haeq
    exact ⟨a, ha, Or.inl ⟨by simpa using hcase, haeq.symm⟩⟩
  · rw [if_neg hcase] at haeq
    exact ⟨a, ha, Or.inr ⟨by simpa using hcase, haeq.symm⟩⟩

theorem mem_modifyOfferById_elim {l : List Offer} {i : Nat} {f : Offer → Offer} {b : Offer}
    (hb : b ∈ modifyOfferById l i f) :
    ∃ o ∈ l, (o.id = i ∧ b = f o) ∨ (o.id ≠ i ∧ b = o) := by
  obtain ⟨o, ho, hoeq⟩ := mem_modifyOfferById.mp hb
  by_cases hcase : (o.id == i) = true
  · rw [if_pos hcase] at hoeq
    exact ⟨o, ho, Or.inl ⟨by simpa using hcase, hoeq.symm⟩⟩
  · rw [if_neg hcase] at hoeq
    exact ⟨o, ho, Or.inr ⟨by simpa using hcase, hoeq.symm⟩⟩

theorem mem_modifyGameById_elim {l : List Game} {i : Nat} {f : Game → Game} {b : Game}
    (hb : b ∈ modifyGameById l i f) :
    ∃ g ∈ l, (g.id = i ∧ b = f g) ∨ (g.id ≠ i ∧ b = g) := by
  obtain ⟨g, hg, hgeq⟩ := mem_modifyGameById.mp hb
  by_cases hcase : (g.id == i) = true
  · rw [if_pos hcase] at hgeq
    exact ⟨g, hg, Or.inl ⟨by simpa using hcase, hgeq.symm⟩⟩
  · rw [if_neg hcase] at hgeq
    exact ⟨g, hg, Or.inr ⟨by simpa using hcase, hgeq.symm⟩⟩

theorem mem_modifyOfferById_of_mem {l : List Offer} {i : Nat} {f : Offer → Offer} {o : Offer}
    (ho : o ∈ l) : (if o.id == i then f o else o) ∈ modifyOfferById l i f :=
  mem_modifyOfferById.mpr ⟨o, ho, rfl⟩

theorem mem_modifyGameById_of_mem {l : List Game} {i : Nat} {f : Game → Game} {g : Game}
    (hg : g ∈ l) : (if g.id == i then f g else g) ∈ modifyGameById l i f :=
  mem_modifyGameById.mpr ⟨g, hg, rfl⟩

theorem nodup_append_single {l : List Nat} {x : Nat} (hN : l.Nodup) (hx : x ∉ l) :
    (l ++ [x]).Nodup := by
  rw [List.nodup_append]
  refine ⟨hN, List.nodup_singleton x, ?_⟩
  intro a ha hb
  simp only [List.mem_singleton] at hb
  subst hb
  exact hx ha

theorem no_offers_of_no_account {s : DiceState} (hInv : Inv s) {w : Nat}
    (hfind : findAccount s.accounts w = none) :
    ∀ o ∈ s.offers, o.owner ≠ w := by
  intro o ho he
  obtain ⟨a, ha, haown⟩ := hInv.offerAcct o ho
  unfold findAccount at hfind
  rw [List.find?_eq_none] at hfind
  exact hfind a ha (by simp [haown, he])

theorem writeReveal_id (c src now : Nat) (gm : Game) : (writeReveal c src now gm).id = gm.id := by
  unfold writeReveal
  split <;> rfl

theorem writeReveal_bet (c src now : Nat) (gm : Game) :
    (writeReveal c src now gm).bet = gm.bet := by
  unfold writeReveal
  split <;> rfl

theorem writeReveal_p1c (c src now : Nat) (gm : Game) :
    (writeReveal c src now gm).player1.commitment = gm.player1.commitment := by
  unfold writeReveal
  split <;> rfl

theorem writeReveal_p2c (c src now : Nat) (gm : Game) :
    (writeReveal c src now gm).player2.commitment = gm.player2.commitment := by
  unfold writeReveal
  split <;> rfl

theorem writeReveal_deadline (c src now : Nat) (gm : Game) :
    (writeReveal c src now gm).deadline = now + FIVE_MINUTES := by
  unfold writeReveal
  split <;> rfl

/-! ### Invariant preservation: `deposit` and `withdraw` -/

theorem inv_onDeposit {s s' : DiceState} {f amt : Nat}
    (hInv : Inv s) (hok : onDeposit s f amt = .ok s') : Inv s' := by
  unfold onDeposit at hok
  obtain rfl := Except.ok.inj hok
  cases hfind : findAccount s.accounts f with
  | none =>
    simp only [hfind]
    have hnotin : f ∉ s.accounts.map Account.owner := by
      intro hmem
      obtain ⟨a, ha, haown⟩ := List.mem_map.mp hmem
      unfold findAccount at hfind
      rw [List.find?_eq_none] at hfind
      exact hfind a ha (by simp [haown])
    have hno : ∀ o ∈ s.offers, o.owner ≠ f := no_offers_of_no_account hInv hfind
    have hcnt0 : openOffersOf s.offers f = 0 := by
      apply List.countP_eq_zero.mpr
      intro o ho
      simp [hno o ho]
    have hcnt0g : openGamesOf s.offers f = 0 := by
      apply List.countP_eq_zero.mpr
      intro o ho
      simp [hno o ho]
    constructor
    case offersIdNodup => exact hInv.offersIdNodup
    case commNodup => exact hInv.commNodup
    case gamesIdNodup => exact hInv.gamesIdNodup
    case ownersNodup =>
      rw [map_owner_modifyAccount _ _ (creditDeposit amt) (fun _ => rfl),
        List.map_append]
      exact nodup_append_single hInv.ownersNodup hnotin
    case gameBound => exact hInv.gameBound
    case offerGame => exact hInv.offerGame
    case matchedBet => exact hInv.matchedBet
    case gameCommNe => exact hInv.gameCommNe
    case gameOffer1 => exact hInv.gameOffer1
    case gameOffer2 => exact hInv.gameOffer2
    case gameOwnersNe => exact hInv.gameOwnersNe
    case offerAcct =>
      intro o ho
      apply exists_owner_modifyAccount ?_ f (creditDeposit amt) (fun _ => rfl)
      obtain ⟨a, ha, haown⟩ := hInv.offerAcct o ho
      exact ⟨a, List.mem_append_left _ ha, haown⟩
    case counterOffers =>
      intro b hb
      obtain ⟨a, ha, hcase⟩ := mem_modifyAccount_elim hb
      have hmain : b.owner = a.owner ∧ b.open_offers = a.open_offers := by
        rcases hcase with ⟨_, rfl⟩ | ⟨_, rfl⟩ <;> exact ⟨rfl, rfl⟩
      rcases List.mem_append.mp ha with ha2 | ha2
      · rw [hmain.1, hmain.2]
        exact hInv.counterOffers a ha2
      · have : a = ⟨f, 0, 0, 0⟩ := by simpa using ha2
        subst this
        rw [hmain.1, hmain.2]
        simp only
        omega
    case counterGames =>
      intro b hb
      obtain ⟨a, ha, hcase⟩ := mem_modifyAccount_elim hb
      have hmain : b.owner = a.owner ∧ b.open_games = a.open_games := by
        rcases hcase with ⟨_, rfl⟩ | ⟨_, rfl⟩ <;> exact ⟨rfl, rfl⟩
      rcases List.mem_append.mp ha with ha2 | ha2
      · rw [hmain.1, hmain.2]
        exact hInv.counterGames a ha2
      · have : a = ⟨f, 0, 0, 0⟩ := by simpa using ha2
        subst this
        rw [hmain.1, hmain.2]
        simp only
        omega
    case revealState => exact hInv.revealState
  | some a0 =>
    simp only [hfind]
    constructor
    case offersIdNodup => exact hInv.offersIdNodup
    case commNodup => exact hInv.commNodup
    case gamesIdNodup => exact hInv.gamesIdNodup
    case ownersNodup =>
      rw [map_owner_modifyAccount _ _ (creditDeposit amt) (fun _ => rfl)]
      exact hInv.ownersNodup
    case gameBound => exact hInv.gameBound
    case offerGame => exact hInv.offerGame
    case matchedBet => exact hInv.matchedBet
    case gameCommNe => exact hInv.gameCommNe
    case gameOffer1 => exact hInv.gameOffer1
    case gameOffer2 => exact hInv.gameOffer2
    case gameOwnersNe => exact hInv.gameOwnersNe
    case offerAcct =>
      intro o ho
      exact exists_owner_modifyAccount (hInv.offerAcct o ho) f (creditDeposit amt) (fun _ => rfl)
    case counterOffers =>
      intro b hb
      obtain ⟨a, ha, hcase⟩ := mem_modifyAccount_elim hb
      have hmain : b.owner = a.owner ∧ b.open_offers = a.open_offers := by
        rcases hcase with ⟨_, rfl⟩ | ⟨_, rfl⟩ <;> exact ⟨rfl, rfl⟩
      rw [hmain.1, hmain.2]
      exact hInv.counterOffers a ha
    case counterGames =>
      intro b hb
      obtain ⟨a, ha, hcase⟩ := mem_modifyAccount_elim hb
      have hmain : b.owner = a.owner ∧ b.open_games = a.open_games := by
        rcases hcase with ⟨_, rfl⟩ | ⟨_, rfl⟩ <;> exact ⟨rfl, rfl⟩
      rw [hmain.1, hmain.2]
      exact hInv.counterGames a ha
    case revealState => exact hInv.revealState

theorem inv_onWithdraw {s s' : DiceState} {toA amt : Nat}
    (hInv : Inv s) (hok : onWithdraw s toA amt = .ok s') : Inv s' := by
  unfold onWithdraw at hok
  cases hfind : findAccount s.accounts toA with
  | none => rw [hfind] at hok; cases hok
  | some acct =>
    simp only [hfind] at hok
    by_cases hbal : acct.eos_balance < amt
    · rw [if_pos hbal] at hok; cases hok
    · rw [if_neg hbal] at hok
      obtain rfl := Except.ok.inj hok
      have hacct_mem := findAccount_mem hfind
      have hacct_own := findAccount_some hfind
      have hmemA2 : ∀ b : Account,
          b ∈ (if (debitWithdraw amt acct).is_empty then
            eraseAccount (modifyAccount s.accounts toA (debitWithdraw amt)) toA
            else modifyAccount s.accounts toA (debitWithdraw amt)) →
          ∃ a ∈ s.accounts, b.owner = a.owner ∧ b.open_offers = a.open_offers ∧
            b.open_games = a.open_games := by
        intro b hb
        have hb2 : b ∈ modifyAccount s.accounts toA (debitWithdraw amt) := by
          split at hb
          · exact (mem_eraseAccount.mp hb).1
          · exact hb
        obtain ⟨a, ha, hcase⟩ := mem_modifyAccount_elim hb2
        rcases hcase with ⟨_, rfl⟩ | ⟨_, rfl⟩
        · exact ⟨a, ha, rfl, rfl, rfl⟩
        · exact ⟨b, ha, rfl, rfl, rfl⟩
      constructor
      next => exact hInv.offersIdNodup
      next => exact hInv.commNodup
      next => exact hInv.gamesIdNodup
      next =>
        have hbase : ((modifyAccount s.accounts toA (debitWithdraw amt)).map
            Account.owner).Nodup := by
          rw [map_owner_modifyAccount _ _ (debitWithdraw amt) (fun _ => rfl)]
          exact hInv.ownersNodup
        dsimp only
        split
        · exact nodup_key_filter _ hbase _
        · exact hbase
      next => exact hInv.gameBound
      next => exact hInv.offerGame
      next => exact hInv.matchedBet
      next => exact hInv.gameCommNe
      next => exact hInv.gameOffer1
      next => exact hInv.gameOffer2
      next => exact hInv.gameOwnersNe
      next =>
        intro o ho
        obtain ⟨b, hb, hbown⟩ :=
          exists_owner_modifyAccount (hInv.offerAcct o ho) toA (debitWithdraw amt) (fun _ => rfl)
        dsimp only
        split
        · rename_i hempty
          refine ⟨b, mem_eraseAccount.mpr ⟨hb, ?_⟩, hbown⟩
          intro hbo
          have hempty2 : acct.open_offers = 0 ∧ acct.open_games = 0 := by
            have := hempty
            simp [debitWithdraw, Account.is_empty] at this
            exact ⟨this.1.2, this.2⟩
          have hcountOff := hInv.counterOffers acct hacct_mem
          have hcountGame := hInv.counterGames acct hacct_mem
          rw [hacct_own] at hcountOff hcountGame
          have hoown : o.owner = toA := by rw [← hbown, hbo]
          by_cases hog : o.gameid = 0
          · have h1 : 1 ≤ openOffersOf s.offers toA := by
              apply one_le_countP ho
              simp [hoown, hog]
            omega
          · have h1 : 1 ≤ openGamesOf s.offers toA := by
              apply one_le_countP ho
              simp [hoown, hog]
            omega
        · exact ⟨b, hb, hbown⟩
      next =>
        intro b hb
        dsimp only at hb
        obtain ⟨a, ha, hbown, hboff, _⟩ := hmemA2 b hb
        rw [hbown, hboff]
        exact hInv.counterOffers a ha
      next =>
        intro b hb
        dsimp only at hb
        obtain ⟨a, ha, hbown, _, hbg⟩ := hmemA2 b hb
        rw [hbown, hbg]
        exact hInv.counterGames a ha
      next => exact hInv.revealState

theorem inv_onCancelOffer {s s' : DiceState} {c : Nat}
    (hInv : Inv s) (hok : onCancelOffer s c = .ok s') : Inv s' := by
  unfold onCancelOffer at hok
  cases hfind : findOfferByCommitment s.offers c with
  | none => rw [hfind] at hok; cases hok
  | some off =>
    simp only [hfind] at hok
    by_cases hgid : off.gameid ≠ 0
    · rw [if_pos hgid] at hok; cases hok
    · rw [if_neg hgid] at hok
      push_neg at hgid
      cases hfa : findAccount s.accounts off.owner with
      | none => rw [hfa] at hok; cases hok
      | some acct =>
        simp only [hfa] at hok
        obtain rfl := Except.ok.inj hok
        have hoff_mem := findOfferByCommitment_mem hfind
        have hmemO : ∀ o : Offer, o ∈ eraseOfferById s.offers off.id ↔
            (o ∈ s.offers ∧ ¬o.id = off.id) := fun o => mem_eraseOfferById
        have hsurv_game : ∀ g2 ∈ s.games, ∀ o ∈ s.offers, o.gameid = g2.id →
            o ∈ eraseOfferById s.offers off.id := by
          intro g2 hg2 o ho hogid
          obtain ⟨n, _, hg1, _⟩ := hInv.gameBound g2 hg2
          refine (hmemO o).mpr ⟨ho, ?_⟩
          intro hid
          have he : o = off := key_inj Offer.id hInv.offersIdNodup ho hoff_mem hid
          subst he
          omega
        constructor
        next => exact nodup_key_filter _ hInv.offersIdNodup _
        next => exact nodup_key_filter _ hInv.commNodup _
        next => exact hInv.gamesIdNodup
        next =>
          rw [map_owner_modifyAccount _ _ (refundCancel off.bet) (fun _ => rfl)]
          exact hInv.ownersNodup
        next => exact hInv.gameBound
        next =>
          intro o ho hone
          exact hInv.offerGame o ((hmemO o).mp ho).1 hone
        next =>
          intro o ho hone
          exact hInv.matchedBet o ((hmemO o).mp ho).1 hone
        next => exact hInv.gameCommNe
        next =>
          intro g2 hg2
          obtain ⟨o, ho, hoc, hoid⟩ := hInv.gameOffer1 g2 hg2
          exact ⟨o, hsurv_game g2 hg2 o ho hoid, hoc, hoid⟩
        next =>
          intro g2 hg2
          obtain ⟨o, ho, hoc, hoid⟩ := hInv.gameOffer2 g2 hg2
          exact ⟨o, hsurv_game g2 hg2 o ho hoid, hoc, hoid⟩
        next =>
          intro g2 hg2 o1 ho1 o2 ho2 hc1 hc2
          exact hInv.gameOwnersNe g2 hg2 o1 ((hmemO o1).mp ho1).1
            o2 ((hmemO o2).mp ho2).1 hc1 hc2
        next =>
          intro o ho
          exact exists_owner_modifyAccount (hInv.offerAcct o ((hmemO o).mp ho).1)
            off.owner (refundCancel off.bet) (fun _ => rfl)
        next =>
          intro b hb
          dsimp only at hb ⊢
          obtain ⟨a, ha, hcase⟩ := mem_modifyAccount_elim hb
          rcases hcase with ⟨hao, rfl⟩ | ⟨hao, rfl⟩
          · have hcnt := hInv.counterOffers a ha
            have hc := openOffersOf_erase_unmatched hInv.offersIdNodup hoff_mem hgid a.owner
            have e1 : (off.owner == a.owner) = true := by simp [hao]
            rw [e1] at hc
            simp only [if_true] at hc
            show openOffersOf (eraseOfferById s.offers off.id) a.owner ≤ a.open_offers - 1
            omega
          · have hcnt := hInv.counterOffers b ha
            have hc := openOffersOf_erase_unmatched hInv.offersIdNodup hoff_mem hgid b.owner
            have e1 : (off.owner == b.owner) = false := by
              simp only [beq_eq_false_iff_ne]
              exact fun h => hao h.symm
            rw [e1] at hc
            simp only [Bool.false_eq_true, if_false] at hc
            omega
        next =>
          intro b hb
          dsimp only at hb ⊢
          obtain ⟨a, ha, hcase⟩ := mem_modifyAccount_elim hb
          rcases hcase with ⟨hao, rfl⟩ | ⟨hao, rfl⟩
          · have hcnt := hInv.counterGames a ha
            have hc := openGamesOf_erase_unmatched hInv.offersIdNodup hoff_mem hgid a.owner
            show openGamesOf (eraseOfferById s.offers off.id) a.owner ≤ a.open_games
            omega
          · have hcnt := hInv.counterGames b ha
            have hc := openGamesOf_erase_unmatched hInv.offersIdNodup hoff_mem hgid b.owner
            omega
        next => exact hInv.revealState

theorem map_key2_keyedMap {α : Type} (keyA keyB : α → Nat) (k : Nat) (f : α → α)
    (hf : ∀ x, keyA (f x) = keyA x) (l : List α) :
    (l.map (fun x => if keyB x == k then f x else x)).map keyA = l.map keyA := by
  rw [List.map_map]
  apply List.map_congr_left
  intro x _
  by_cases h : (keyB x == k) = true
  · simp only [Function.comp_apply, if_pos h, hf]
  · simp only [Function.comp_apply, if_neg h]

theorem map_comm_modifyOfferById (l : List Offer) (i : Nat) (f : Offer → Offer)
    (hf : ∀ o, (f o).commitment = o.commitment) :
    (modifyOfferById l i f).map Offer.commitment = l.map Offer.commitment :=
  map_key2_keyedMap Offer.commitment Offer.id i f hf l

theorem writeReveal_p2r_of_pos {cw : Nat} {gm : Game} (src now : Nat)
    (h : (cw == gm.player1.commitment) = true) :
    (writeReveal cw src now gm).player2.reveal = gm.player2.reveal := by
  unfold writeReveal
  rw [if_pos h]

theorem writeReveal_p1r_of_neg {cw : Nat} {gm : Game} (src now : Nat)
    (h : ¬ (cw == gm.player1.commitment) = true) :
    (writeReveal cw src now gm).player1.reveal = gm.player1.reveal := by
  unfold writeReveal
  rw [if_neg h]

/-- Writing a first reveal into a game of the table preserves the invariant,
provided the slot that is not written still has a zero reveal. -/
theorem inv_games_writeReveal {s : DiceState} (hInv : Inv s) {g : Game} (hgmem : g ∈ s.games)
    (cw src now : Nat)
    (hz1 : (cw == g.player1.commitment) = true → g.player2.reveal = 0)
    (hz2 : ¬ (cw == g.player1.commitment) = true → g.player1.reveal = 0) :
    Inv { s with games := modifyGameById s.games g.id (writeReveal cw src now) } := by
  have hmemtr : ∀ g2 ∈ s.games,
      ∃ g3 ∈ modifyGameById s.games g.id (writeReveal cw src now),
        g3.id = g2.id ∧ g3.player1.commitment = g2.player1.commitment ∧
        g3.player2.commitment = g2.player2.commitment := by
    intro g2 hg2
    refine ⟨if g2.id == g.id then writeReveal cw src now g2 else g2,
      mem_modifyGameById_of_mem hg2, ?_⟩
    by_cases hcase : (g2.id == g.id) = true
    · rw [if_pos hcase, writeReveal_id, writeReveal_p1c, writeReveal_p2c]
      exact ⟨rfl, rfl, rfl⟩
    · rw [if_neg hcase]
      exact ⟨rfl, rfl, rfl⟩
  have hmemback : ∀ g3 ∈ modifyGameById s.games g.id (writeReveal cw src now),
      ∃ g2 ∈ s.games, g3.id = g2.id ∧ g3.player1.commitment = g2.player1.commitment ∧
        g3.player2.commitment = g2.player2.commitment := by
    intro g3 hg3
    obtain ⟨g2, hg2, hcase⟩ := mem_modifyGameById_elim hg3
    rcases hcase with ⟨_, rfl⟩ | ⟨_, rfl⟩
    · exact ⟨g2, hg2, writeReveal_id cw src now g2, writeReveal_p1c cw src now g2,
        writeReveal_p2c cw src now g2⟩
    · exact ⟨g3, hg2, rfl, rfl, rfl⟩
  constructor
  case offersIdNodup => exact hInv.offersIdNodup
  case commNodup => exact hInv.commNodup
  case gamesIdNodup =>
    rw [map_id_modifyGameById _ _ (writeReveal cw src now) (writeReveal_id cw src now)]
    exact hInv.gamesIdNodup
  case ownersNodup => exact hInv.ownersNodup
  case gameBound =>
    intro g3 hg3
    obtain ⟨g2, hg2, hid, _, _⟩ := hmemback g3 hg3
    obtain ⟨n, hn, h1, h2⟩ := hInv.gameBound g2 hg2
    exact ⟨n, hn, by omega, by omega⟩
  case offerGame =>
    intro o ho hone
    obtain ⟨g2, hg2, hg2id, hcin⟩ := hInv.offerGame o ho hone
    obtain ⟨g3, hg3, hid, hc1, hc2⟩ := hmemtr g2 hg2
    refine ⟨g3, hg3, by omega, ?_⟩
    rw [hc1, hc2]
    exact hcin
  case matchedBet => exact hInv.matchedBet
  case gameCommNe =>
    intro g3 hg3
    obtain ⟨g2, hg2, _, hc1, hc2⟩ := hmemback g3 hg3
    rw [hc1, hc2]
    exact hInv.gameCommNe g2 hg2
  case gameOffer1 =>
    intro g3 hg3
    obtain ⟨g2, hg2, hid, hc1, _⟩ := hmemback g3 hg3
    obtain ⟨o, ho, hoc, hoid⟩ := hInv.gameOffer1 g2 hg2
    exact ⟨o, ho, by rw [hc1]; exact hoc, by omega⟩
  case gameOffer2 =>
    intro g3 hg3
    obtain ⟨g2, hg2, hid, _, hc2⟩ := hmemback g3 hg3
    obtain ⟨o, ho, hoc, hoid⟩ := hInv.gameOffer2 g2 hg2
    exact ⟨o, ho, by rw [hc2]; exact hoc, by omega⟩
  case gameOwnersNe =>
    intro g3 hg3 o1 ho1 o2 ho2 hc1 hc2
    obtain ⟨g2, hg2, _, hcc1, hcc2⟩ := hmemback g3 hg3
    rw [hcc1] at hc1
    rw [hcc2] at hc2
    exact hInv.gameOwnersNe g2 hg2 o1 ho1 o2 ho2 hc1 hc2
  case offerAcct => exact hInv.offerAcct
  case counterOffers => exact hInv.counterOffers
  case counterGames => exact hInv.counterGames
  case revealState =>
    intro g3 hg3
    obtain ⟨g2, hg2, hcase⟩ := mem_modifyGameById_elim hg3
    rcases hcase with ⟨hid, rfl⟩ | ⟨_, rfl⟩
    · have hgg : g2 = g := key_inj Game.id hInv.gamesIdNodup hg2 hgmem hid
      rw [hgg]
      constructor
      · intro hdl
        rw [writeReveal_deadline] at hdl
        exact absurd hdl (by unfold FIVE_MINUTES; omega)
      · by_cases hcw : (cw == g.player1.commitment) = true
        · right
          rw [writeReveal_p2r_of_pos src now hcw]
          exact hz1 hcw
        · left
          rw [writeReveal_p1r_of_neg src now hcw]
          exact hz2 hcw
    · exact hInv.revealState g3 hg2

theorem inv_onClaimExpired {s s' : DiceState} {now gid : Nat}
    (hInv : Inv s) (hok : onClaimExpired s now gid = .ok s') : Inv s' := by
  unfold onClaimExpired at hok
  cases hg : findGame s.games gid with
  | none => rw [hg] at hok; cases hok
  | some g =>
    simp only [hg] at hok
    by_cases hdl : g.deadline = 0 ∨ ¬ (g.deadline < now)
    · rw [if_pos hdl] at hok; cases hok
    rw [if_neg hdl] at hok
    have hgmem := findGame_mem hg
    cases h1 : findOfferByCommitment s.offers g.player1.commitment with
    | none => simp only [h1] at hok; cases hok
    | some o1 =>
      cases h2 : findOfferByCommitment s.offers g.player2.commitment with
      | none => simp only [h1, h2] at hok; cases hok
      | some o2 =>
        simp only [h1, h2] at hok
        have ho1mem := findOfferByCommitment_mem h1
        have ho1c := findOfferByCommitment_some h1
        have ho2mem := findOfferByCommitment_mem h2
        have ho2c := findOfferByCommitment_some h2
        have ho1gid : o1.gameid = g.id := by
          obtain ⟨ow, how, howc, howid⟩ := hInv.gameOffer1 g hgmem
          have : o1 = ow := key_inj Offer.commitment hInv.commNodup ho1mem how
            (ho1c.trans howc.symm)
          rw [this, howid]
        have ho2gid : o2.gameid = g.id := by
          obtain ⟨ow, how, howc, howid⟩ := hInv.gameOffer2 g hgmem
          have : o2 = ow := key_inj Offer.commitment hInv.commNodup ho2mem how
            (ho2c.trans howc.symm)
          rw [this, howid]
        by_cases hr1 : g.player1.reveal ≠ 0
        · rw [if_pos hr1] at hok
          by_cases hr2 : g.player2.reveal ≠ 0
          · rw [if_pos hr2] at hok; cases hok
          · rw [if_neg hr2] at hok
            exact inv_payAndClean hInv hgmem ho1mem ho2mem ho1gid ho2gid
              (Or.inl ⟨ho1c, ho2c⟩) hok
        · rw [if_neg hr1] at hok
          rw [if_neg hr1] at hok
          exact inv_payAndClean hInv hgmem ho2mem ho1mem ho2gid ho1gid
            (Or.inr ⟨ho2c, ho1c⟩) hok

theorem inv_onReveal {sha : Nat → Nat} {gd : Player → Player → Nat × Nat}
    {s s' : DiceState} {now c src : Nat}
    (hInv : Inv s) (hok : onReveal sha gd s now c src = .ok s') : Inv s' := by
  unfold onReveal at hok
  by_cases hsha : sha src ≠ c
  · rw [if_pos hsha] at hok; cases hok
  rw [if_neg hsha] at hok
  cases hoff : findOfferByCommitment s.offers c with
  | none => rw [hoff] at hok; cases hok
  | some off =>
    simp only [hoff] at hok
    by_cases hg0 : off.gameid = 0
    · rw [if_pos hg0] at hok; cases hok
    rw [if_neg hg0] at hok
    cases hgf : findGame s.games off.gameid with
    | none => rw [hgf] at hok; cases hok
    | some g =>
      simp only [hgf] at hok
      have hoffmem := findOfferByCommitment_mem hoff
      have hoffc := findOfferByCommitment_some hoff
      have hgmem := findGame_mem hgf
      have hgid : g.id = off.gameid := findGame_some hgf
      obtain ⟨g2, hg2, hg2id, hcin⟩ := hInv.offerGame off hoffmem hg0
      have hgg : g2 = g := key_inj Game.id hInv.gamesIdNodup hg2 hgmem (by omega)
      rw [hgg] at hcin
      by_cases hc1 : (g.player1.commitment == c) = true
      · rw [if_pos hc1] at hok
        simp only at hok
        have hc1e : g.player1.commitment = c := by simpa using hc1
        by_cases hcurr : g.player1.reveal ≠ 0
        · rw [if_pos hcurr] at hok; cases hok
        rw [if_neg hcurr] at hok
        by_cases hprev : g.player2.reveal ≠ 0
        · rw [if_pos hprev] at hok
          cases hpo : findOfferByCommitment s.offers g.player2.commitment with
          | none => simp only [hpo] at hok; cases hok
          | some prevOff =>
            simp only [hpo] at hok
            have hpomem := findOfferByCommitment_mem hpo
            have hpoc := findOfferByCommitment_some hpo
            have hpogid : prevOff.gameid = g.id := by
              obtain ⟨ow, how, howc, howid⟩ := hInv.gameOffer2 g hgmem
              have he : prevOff = ow := key_inj Offer.commitment hInv.commNodup hpomem how
                (hpoc.trans howc.symm)
              rw [he, howid]
            have hoffc1 : off.commitment = g.player1.commitment := by rw [hoffc, hc1e]
            by_cases hd : (gd g.player1 g.player2).2 < (gd g.player1 g.player2).1
            · rw [if_pos hd] at hok
              exact inv_payAndClean hInv hgmem hpomem hoffmem hpogid (by omega)
                (Or.inr ⟨hpoc, hoffc1⟩) hok
            · rw [if_neg hd] at hok
              exact inv_payAndClean hInv hgmem hoffmem hpomem (by omega) hpogid
                (Or.inl ⟨hoffc1, hpoc⟩) hok
        · rw [if_neg hprev] at hok
          obtain rfl := Except.ok.inj hok
          push_neg at hprev
          refine inv_games_writeReveal hInv hgmem g.player1.commitment src now ?_ ?_
          · intro _
            exact hprev
          · intro hfalse
            exact absurd (by simp) hfalse
      · rw [if_neg hc1] at hok
        simp only at hok
        have hc2e : off.commitment = g.player2.commitment := by
          rcases hcin with h | h
          · exact absurd (by simp [← h, hoffc]) hc1
          · exact h
        have hc2c : g.player2.commitment = c := by rw [← hc2e, hoffc]
        by_cases hcurr : g.player2.reveal ≠ 0
        · rw [if_pos hcurr] at hok; cases hok
        rw [if_neg hcurr] at hok
        by_cases hprev : g.player1.reveal ≠ 0
        · rw [if_pos hprev] at hok
          cases hpo : findOfferByCommitment s.offers g.player1.commitment with
          | none => simp only [hpo] at hok; cases hok
          | some prevOff =>
            simp only [hpo] at hok
            have hpomem := findOfferByCommitment_mem hpo
            have hpoc := findOfferByCommitment_some hpo
            have hpogid : prevOff.gameid = g.id := by
              obtain ⟨ow, how, howc, howid⟩ := hInv.gameOffer1 g hgmem
              have he : prevOff = ow := key_inj Offer.commitment hInv.commNodup hpomem how
                (hpoc.trans howc.symm)
              rw [he, howid]
            by_cases hd : (gd g.player1 g.player2).2 < (gd g.player1 g.player2).1
            · rw [if_pos hd] at hok
              exact inv_payAndClean hInv hgmem hpomem hoffmem hpogid (by omega)
                (Or.inl ⟨hpoc, hc2e⟩) hok
            · rw [if_neg hd] at hok
              exact inv_payAndClean hInv hgmem hoffmem hpomem (by omega) hpogid
                (Or.inr ⟨hc2e, hpoc⟩) hok
        · rw [if_neg hprev] at hok
          obtain rfl := Except.ok.inj hok
          push_neg at hprev
          refine inv_games_writeReveal hInv hgmem g.player2.commitment src now ?_ ?_
          · intro htrue
            have : g.player2.commitment = g.player1.commitment := by simpa using htrue
            exact absurd this.symm (hInv.gameCommNe g hgmem)
          · intro _
            exact hprev

theorem not_mem_comm_of_not_hasOffer {l : List Offer} {c : Nat} (h : ¬hasOffer l c = true) :
    ∀ o ∈ l, o.commitment ≠ c := by
  intro o ho he
  apply h
  unfold hasOffer
  rcases findOfferByCommitment_isSome ⟨o, ho, he⟩ with ⟨x, hx⟩
  rw [hx]
  rfl

theorem apk_not_mem {l : List Offer} : availablePrimaryKey l ∉ l.map Offer.id := by
  intro hm
  obtain ⟨o, ho, hoid⟩ := List.mem_map.mp hm
  have := lt_availablePrimaryKey ho
  omega

/-- The unmatched branch of `offerbet` preserves the invariant. -/
theorem inv_offerbet_nomatch {s : DiceState} {bet player c : Nat} (hInv : Inv s)
    (hbet : ¬bet = 0) (hdup : ¬hasOffer s.offers c = true)
    (hacct : ∃ a ∈ s.accounts, a.owner = player) :
    Inv { s with
      offers := s.offers ++ [⟨availablePrimaryKey s.offers, player, bet, c, 0⟩],
      accounts := modifyAccount s.accounts player (debitQueued bet) } := by
  have hfreshc := not_mem_comm_of_not_hasOffer hdup
  have hmem1 : ∀ o : Offer,
      o ∈ s.offers ++ [⟨availablePrimaryKey s.offers, player, bet, c, 0⟩] ↔
      (o ∈ s.offers ∨ o = ⟨availablePrimaryKey s.offers, player, bet, c, 0⟩) := by
    intro o
    rw [List.mem_append, List.mem_singleton]
  constructor
  case offersIdNodup =>
    rw [List.map_append]
    exact nodup_append_single hInv.offersIdNodup apk_not_mem
  case commNodup =>
    rw [List.map_append]
    apply nodup_append_single hInv.commNodup
    intro hm
    obtain ⟨o, ho, hoc⟩ := List.mem_map.mp hm
    exact hfreshc o ho hoc
  case gamesIdNodup => exact hInv.gamesIdNodup
  case ownersNodup =>
    rw [map_owner_modifyAccount _ _ (debitQueued bet) (fun _ => rfl)]
    exact hInv.ownersNodup
  case gameBound => exact hInv.gameBound
  case offerGame =>
    intro o ho hone
    rcases (hmem1 o).mp ho with ho2 | rfl
    · exact hInv.offerGame o ho2 hone
    · simp at hone
  case matchedBet =>
    intro o ho hone
    rcases (hmem1 o).mp ho with ho2 | rfl
    · exact hInv.matchedBet o ho2 hone
    · simp at hone
  case gameCommNe => exact hInv.gameCommNe
  case gameOffer1 =>
    intro g2 hg2
    obtain ⟨o, ho, hoc, hoid⟩ := hInv.gameOffer1 g2 hg2
    exact ⟨o, List.mem_append_left _ ho, hoc, hoid⟩
  case gameOffer2 =>
    intro g2 hg2
    obtain ⟨o, ho, hoc, hoid⟩ := hInv.gameOffer2 g2 hg2
    exact ⟨o, List.mem_append_left _ ho, hoc, hoid⟩
  case gameOwnersNe =>
    intro g2 hg2 o1 ho1 o2 ho2 hc1 hc2
    obtain ⟨w1, hw1, hw1c, _⟩ := hInv.gameOffer1 g2 hg2
    obtain ⟨w2, hw2, hw2c, _⟩ := hInv.gameOffer2 g2 hg2
    rcases (hmem1 o1).mp ho1 with ho1b | rfl
    · rcases (hmem1 o2).mp ho2 with ho2b | rfl
      · exact hInv.gameOwnersNe g2 hg2 o1 ho1b o2 ho2b hc1 hc2
      · have hcc : w2.commitment = c := by
          have h3 := hw2c.trans hc2.symm
          simpa using h3
        exact absurd hcc (hfreshc w2 hw2)
    · have hcc : w1.commitment = c := by
        have h3 := hw1c.trans hc1.symm
        simpa using h3
      exact absurd hcc (hfreshc w1 hw1)
  case offerAcct =>
    intro o ho
    rcases (hmem1 o).mp ho with ho2 | rfl
    · exact exists_owner_modifyAccount (hInv.offerAcct o ho2) player (debitQueued bet)
        (fun _ => rfl)
    · exact exists_owner_modifyAccount hacct player (debitQueued bet) (fun _ => rfl)
  case counterOffers =>
    intro b hb
    obtain ⟨a, ha, hcase⟩ := mem_modifyAccount_elim hb
    rcases hcase with ⟨hao, rfl⟩ | ⟨hao, rfl⟩
    · have hcnt := hInv.counterOffers a ha
      have hc := openOffersOf_append s.offers
        ⟨availablePrimaryKey s.offers, player, bet, c, 0⟩ a.owner
      have e1 : ((⟨availablePrimaryKey s.offers, player, bet, c, 0⟩ : Offer).owner == a.owner
          && (⟨availablePrimaryKey s.offers, player, bet, c, 0⟩ : Offer).gameid == 0) = true := by
        simp [hao]
      rw [e1] at hc
      simp only [if_true] at hc
      show openOffersOf (s.offers ++ [⟨availablePrimaryKey s.offers, player, bet, c, 0⟩])
        a.owner ≤ a.open_offers + 1
      omega
    · have hcnt := hInv.counterOffers b ha
      have hc := openOffersOf_append s.offers
        ⟨availablePrimaryKey s.offers, player, bet, c, 0⟩ b.owner
      have e1 : ((⟨availablePrimaryKey s.offers, player, bet, c, 0⟩ : Offer).owner == b.owner
          && (⟨availablePrimaryKey s.offers, player, bet, c, 0⟩ : Offer).gameid == 0) = false := by
        simp only [Bool.and_eq_false_iff]
        left
        simp only [beq_eq_false_iff_ne]
        exact fun h => hao h.symm
      rw [e1] at hc
      simp only [Bool.false_eq_true, if_false] at hc
      show openOffersOf (s.offers ++ [⟨availablePrimaryKey s.offers, player, bet, c, 0⟩])
        b.owner ≤ b.open_offers
      omega
  case counterGames =>
    intro b hb
    obtain ⟨a, ha, hcase⟩ := mem_modifyAccount_elim hb
    have hc : ∀ w, openGamesOf (s.offers ++ [⟨availablePrimaryKey s.offers, player, bet, c, 0⟩]) w
        = openGamesOf s.offers w := by
      intro w
      have h2 := openGamesOf_append s.offers
        ⟨availablePrimaryKey s.offers, player, bet, c, 0⟩ w
      simp only [bne_self_eq_false, Bool.and_false, Bool.false_eq_true, if_false] at h2
      omega
    rcases hcase with ⟨hao, rfl⟩ | ⟨hao, rfl⟩
    · have hcnt := hInv.counterGames a ha
      show openGamesOf (s.offers ++ [⟨availablePrimaryKey s.offers, player, bet, c, 0⟩])
        a.owner ≤ a.open_games
      rw [hc]
      exact hcnt
    · have hcnt := hInv.counterGames b ha
      show openGamesOf (s.offers ++ [⟨availablePrimaryKey s.offers, player, bet, c, 0⟩])
        b.owner ≤ b.open_games
      rw [hc]
      exact hcnt
  case revealState => exact hInv.revealState

/-- The matched branch of `offerbet` preserves the invariant. -/
theorem inv_offerbet_match {s : DiceState} {bet player c next : Nat} {m : Offer} (hInv : Inv s)
    (hbet : ¬bet = 0) (hdup : ¬hasOffer s.offers c = true)
    (hacct : ∃ a ∈ s.accounts, a.owner = player)
    (hmmem1 : m ∈ s.offers ++ [(⟨availablePrimaryKey s.offers, player, bet, c, 0⟩ : Offer)])
    (hmbet : m.bet = bet) (hmo : m.owner ≠ player)
    (hnext1 : 1 ≤ next) (hnextlt : ∀ g2 ∈ s.games, g2.id < next) :
    Inv { offers := modifyOfferById (modifyOfferById
            (s.offers ++ [(⟨availablePrimaryKey s.offers, player, bet, c, 0⟩ : Offer)]) m.id
            (markMatched next)) (availablePrimaryKey s.offers) (markMatched next),
          games := s.games ++ [(⟨next, bet, 0, ⟨m.commitment, 0⟩, ⟨c, 0⟩⟩ : Game)],
          global := some next,
          accounts := modifyAccount (modifyAccount s.accounts m.owner matchedOwnerUpd)
            player (debitMatched bet) } := by
  have hfreshc := not_mem_comm_of_not_hasOffer hdup
  have hnext0 : ¬ next = 0 := by omega
  have hm_mem : m ∈ s.offers := by
    rcases List.mem_append.mp hmmem1 with h | h
    · exact h
    · rw [List.mem_singleton] at h
      exact absurd (by rw [h]) hmo
  have hmid_lt : m.id < availablePrimaryKey s.offers := lt_availablePrimaryKey hm_mem
  have hm_g0 : m.gameid = 0 := by
    by_cases h : m.gameid = 0
    · exact h
    · exact absurd (hmbet.symm.trans (hInv.matchedBet m hm_mem h)) (by omega)
  have hN1 : ((s.offers ++ [(⟨availablePrimaryKey s.offers, player, bet, c, 0⟩ : Offer)]).map
      Offer.id).Nodup := by
    rw [List.map_append]
    exact nodup_append_single hInv.offersIdNodup apk_not_mem
  have hC1 : ((s.offers ++ [(⟨availablePrimaryKey s.offers, player, bet, c, 0⟩ : Offer)]).map
      Offer.commitment).Nodup := by
    rw [List.map_append]
    apply nodup_append_single hInv.commNodup
    intro hm2
    obtain ⟨o, ho, hoc⟩ := List.mem_map.mp hm2
    exact hfreshc o ho hoc
  have hnewO1 : (⟨availablePrimaryKey s.offers, player, bet, c, 0⟩ : Offer) ∈
      s.offers ++ [(⟨availablePrimaryKey s.offers, player, bet, c, 0⟩ : Offer)] :=
    List.mem_append_right _ (List.mem_singleton.mpr rfl)
  have hm1 : m ∈ s.offers ++ [(⟨availablePrimaryKey s.offers, player, bet, c, 0⟩ : Offer)] :=
    hmmem1
  have hN2 : ((modifyOfferById
      (s.offers ++ [(⟨availablePrimaryKey s.offers, player, bet, c, 0⟩ : Offer)])
      m.id (markMatched next)).map Offer.id).Nodup := by
    rw [map_id_modifyOfferById _ _ (markMatched next) (fun _ => rfl)]
    exact hN1
  have hC3 : ((modifyOfferById (modifyOfferById
      (s.offers ++ [(⟨availablePrimaryKey s.offers, player, bet, c, 0⟩ : Offer)]) m.id
      (markMatched next)) (availablePrimaryKey s.offers) (markMatched next)).map
      Offer.commitment).Nodup := by
    rw [map_comm_modifyOfferById _ _ (markMatched next) (fun _ => rfl),
        map_comm_modifyOfferById _ _ (markMatched next) (fun _ => rfl)]
    exact hC1
  have hN3 : ((modifyOfferById (modifyOfferById
      (s.offers ++ [(⟨availablePrimaryKey s.offers, player, bet, c, 0⟩ : Offer)]) m.id
      (markMatched next)) (availablePrimaryKey s.offers) (markMatched next)).map
      Offer.id).Nodup := by
    rw [map_id_modifyOfferById _ _ (markMatched next) (fun _ => rfl)]
    exact hN2
  have hnewO2 : (⟨availablePrimaryKey s.offers, player, bet, c, 0⟩ : Offer) ∈ modifyOfferById
      (s.offers ++ [(⟨availablePrimaryKey s.offers, player, bet, c, 0⟩ : Offer)]) m.id
      (markMatched next) := by
    have h2 := mem_modifyOfferById_of_mem (i := m.id) (f := markMatched next) hnewO1
    rw [if_neg (by simp only [beq_iff_eq]; omega)] at h2
    exact h2
  have himgm : markMatched next m ∈ modifyOfferById (modifyOfferById
      (s.offers ++ [(⟨availablePrimaryKey s.offers, player, bet, c, 0⟩ : Offer)]) m.id
      (markMatched next)) (availablePrimaryKey s.offers) (markMatched next) := by
    have h1 : markMatched next m ∈ modifyOfferById
        (s.offers ++ [(⟨availablePrimaryKey s.offers, player, bet, c, 0⟩ : Offer)]) m.id
        (markMatched next) := by
      have h2 := mem_modifyOfferById_of_mem (i := m.id) (f := markMatched next) hm1
      rw [if_pos (by simp)] at h2
      exact h2
    have h2 := mem_modifyOfferById_of_mem (i := availablePrimaryKey s.offers)
      (f := markMatched next) h1
    rw [if_neg ?_] at h2
    · exact h2
    · show ¬ ((markMatched next m).id == availablePrimaryKey s.offers) = true
      have he : (markMatched next m).id = m.id := rfl
      rw [he]
      simp only [beq_iff_eq]
      omega
  have himgn : markMatched next (⟨availablePrimaryKey s.offers, player, bet, c, 0⟩ : Offer) ∈
      modifyOfferById (modifyOfferById
      (s.offers ++ [(⟨availablePrimaryKey s.offers, player, bet, c, 0⟩ : Offer)]) m.id
      (markMatched next)) (availablePrimaryKey s.offers) (markMatched next) := by
    have h2 := mem_modifyOfferById_of_mem (i := availablePrimaryKey s.offers)
      (f := markMatched next) hnewO2
    rw [if_pos (by simp)] at h2
    exact h2
  have himgo : ∀ o ∈ s.offers, o ≠ m → o ∈ modifyOfferById (modifyOfferById
      (s.offers ++ [(⟨availablePrimaryKey s.offers, player, bet, c, 0⟩ : Offer)]) m.id
      (markMatched next)) (availablePrimaryKey s.offers) (markMatched next) := by
    intro o ho hom
    have hoid : o.id ≠ m.id := fun h =>
      hom (key_inj Offer.id hInv.offersIdNodup ho hm_mem h)
    have hoapk : o.id ≠ availablePrimaryKey s.offers := by
      have := lt_availablePrimaryKey ho
      omega
    have h1 : o ∈ modifyOfferById
        (s.offers ++ [(⟨availablePrimaryKey s.offers, player, bet, c, 0⟩ : Offer)]) m.id
        (markMatched next) := by
      have h2 := mem_modifyOfferById_of_mem (i := m.id) (f := markMatched next)
        (List.mem_append_left [(⟨availablePrimaryKey s.offers, player, bet, c, 0⟩ : Offer)] ho)
      rw [if_neg (by simpa using hoid)] at h2
      exact h2
    have h2 := mem_modifyOfferById_of_mem (i := availablePrimaryKey s.offers)
      (f := markMatched next) h1
    rw [if_neg (by simpa using hoapk)] at h2
    exact h2
  have helim : ∀ o3 ∈ modifyOfferById (modifyOfferById
      (s.offers ++ [(⟨availablePrimaryKey s.offers, player, bet, c, 0⟩ : Offer)]) m.id
      (markMatched next)) (availablePrimaryKey s.offers) (markMatched next),
      o3 = markMatched next m ∨
      o3 = markMatched next (⟨availablePrimaryKey s.offers, player, bet, c, 0⟩ : Offer) ∨
      (o3 ∈ s.offers ∧ o3 ≠ m) := by
    intro o3 ho3
    obtain ⟨o2, ho2, hcase2⟩ := mem_modifyOfferById_elim ho3
    obtain ⟨o1, ho1, hcase1⟩ := mem_modifyOfferById_elim ho2
    rcases hcase1 with ⟨hid1, heq1⟩ | ⟨hid1, heq1⟩
    · have he : o1 = m := key_inj Offer.id hN1 ho1 hm1 hid1
      rcases hcase2 with ⟨hid2, heq2⟩ | ⟨hid2, heq2⟩
      · rw [heq1] at hid2
        have hid2b : o1.id = availablePrimaryKey s.offers := hid2
        rw [he] at hid2b
        omega
      · rw [heq2, heq1, he]
        exact Or.inl rfl
    · rcases hcase2 with ⟨hid2, heq2⟩ | ⟨hid2, heq2⟩
      · rw [heq1] at hid2
        have he : o1 = (⟨availablePrimaryKey s.offers, player, bet, c, 0⟩ : Offer) :=
          key_inj Offer.id hN1 ho1 hnewO1 hid2
        rw [heq2, heq1, he]
        exact Or.inr (Or.inl rfl)
      · rw [heq1] at hid2
        rcases List.mem_append.mp ho1 with h | h
        · refine Or.inr (Or.inr ?_)
          rw [heq2, heq1]
          refine ⟨h, ?_⟩
          intro he2
          rw [he2] at hid1
          exact hid1 rfl
        · rw [List.mem_singleton] at h
          rw [h] at hid2
          exact absurd rfl hid2
  have hcOff : ∀ w, openOffersOf (modifyOfferById (modifyOfferById
      (s.offers ++ [(⟨availablePrimaryKey s.offers, player, bet, c, 0⟩ : Offer)]) m.id
      (markMatched next)) (availablePrimaryKey s.offers) (markMatched next)) w
      + (if m.owner == w then 1 else 0) = openOffersOf s.offers w := by
    intro w
    have h1 := openOffersOf_markMatched hN1 hm1 next hnext0 w
    have e1 : (m.owner == w && m.gameid == 0) = (m.owner == w) := by
      rw [hm_g0]
      simp
    rw [e1] at h1
    have h2 := openOffersOf_markMatched hN2 hnewO2 next hnext0 w
    dsimp only at h2
    have e2 : ((⟨availablePrimaryKey s.offers, player, bet, c, 0⟩ : Offer).owner == w &&
        (⟨availablePrimaryKey s.offers, player, bet, c, 0⟩ : Offer).gameid == 0)
        = (player == w) := by simp
    rw [e2] at h2
    have h3 := openOffersOf_append s.offers
      (⟨availablePrimaryKey s.offers, player, bet, c, 0⟩ : Offer) w
    have e3 : ((⟨availablePrimaryKey s.offers, player, bet, c, 0⟩ : Offer).owner == w &&
        (⟨availablePrimaryKey s.offers, player, bet, c, 0⟩ : Offer).gameid == 0)
        = (player == w) := by simp
    rw [e3] at h3
    omega
  have hcGame : ∀ w, openGamesOf (modifyOfferById (modifyOfferById
      (s.offers ++ [(⟨availablePrimaryKey s.offers, player, bet, c, 0⟩ : Offer)]) m.id
      (markMatched next)) (availablePrimaryKey s.offers) (markMatched next)) w
      = openGamesOf s.offers w + (if m.owner == w then 1 else 0)
        + (if player == w then 1 else 0) := by
    intro w
    have h1 := openGamesOf_markMatched hN1 hm1 hm_g0 next hnext0 w
    have h2 := openGamesOf_markMatched hN2 hnewO2 rfl next hnext0 w
    dsimp only at h2
    have h3 := openGamesOf_append s.offers
      (⟨availablePrimaryKey s.offers, player, bet, c, 0⟩ : Offer) w
    simp only [bne_self_eq_false, Bool.and_false, Bool.false_eq_true, if_false] at h3
    have e2 : ((⟨availablePrimaryKey s.offers, player, bet, c, 0⟩ : Offer).owner == w)
        = (player == w) := rfl
    rw [e2] at h2
    omega
  constructor
  case offersIdNodup => exact hN3
  case commNodup => exact hC3
  case gamesIdNodup =>
    simp only [List.map_append, List.map_cons, List.map_nil]
    apply nodup_append_single hInv.gamesIdNodup
    intro hm2
    obtain ⟨g2, hg2, hg2id⟩ := List.mem_map.mp hm2
    have hgg : g2.id = next := hg2id
    have := hnextlt g2 hg2
    omega
  case ownersNodup =>
    rw [map_owner_modifyAccount _ _ (debitMatched bet) (fun _ => rfl),
        map_owner_modifyAccount _ _ matchedOwnerUpd (fun _ => rfl)]
    exact hInv.ownersNodup
  case gameBound =>
    intro g2 hg2
    rcases List.mem_append.mp hg2 with h | h
    · obtain ⟨n2, _, h1, _⟩ := hInv.gameBound g2 h
      have := hnextlt g2 h
      exact ⟨next, rfl, h1, by omega⟩
    · rw [List.mem_singleton] at h
      rw [h]
      exact ⟨next, rfl, hnext1, Nat.le_refl _⟩
  case offerGame =>
    intro o ho hone
    rcases helim o ho with rfl | rfl | ⟨ho2, hom⟩
    · refine ⟨(⟨next, bet, 0, ⟨m.commitment, 0⟩, ⟨c, 0⟩⟩ : Game),
        List.mem_append_right _ (List.mem_singleton.mpr rfl), rfl, Or.inl rfl⟩
    · refine ⟨(⟨next, bet, 0, ⟨m.commitment, 0⟩, ⟨c, 0⟩⟩ : Game),
        List.mem_append_right _ (List.mem_singleton.mpr rfl), rfl, Or.inr rfl⟩
    · obtain ⟨g2, hg2, hg2id, hc2⟩ := hInv.offerGame o ho2 hone
      exact ⟨g2, List.mem_append_left _ hg2, hg2id, hc2⟩
  case matchedBet =>
    intro o ho hone
    rcases helim o ho with rfl | rfl | ⟨ho2, hom⟩
    · rfl
    · rfl
    · exact hInv.matchedBet o ho2 hone
  case gameCommNe =>
    intro g2 hg2
    rcases List.mem_append.mp hg2 with h | h
    · exact hInv.gameCommNe g2 h
    · rw [List.mem_singleton] at h
      rw [h]
      show m.commitment ≠ c
      exact hfreshc m hm_mem
  case gameOffer1 =>
    intro g2 hg2
    rcases List.mem_append.mp hg2 with h | h
    · obtain ⟨o, ho, hoc, hoid⟩ := hInv.gameOffer1 g2 h
      have hom : o ≠ m := by
        intro he
        rw [he] at hoid
        obtain ⟨n2, _, h1, _⟩ := hInv.gameBound g2 h
        omega
      exact ⟨o, himgo o ho hom, hoc, hoid⟩
    · rw [List.mem_singleton] at h
      rw [h]
      exact ⟨markMatched next m, himgm, rfl, rfl⟩
  case gameOffer2 =>
    intro g2 hg2
    rcases List.mem_append.mp hg2 with h | h
    · obtain ⟨o, ho, hoc, hoid⟩ := hInv.gameOffer2 g2 h
      have hom : o ≠ m := by
        intro he
        rw [he] at hoid
        obtain ⟨n2, _, h1, _⟩ := hInv.gameBound g2 h
        omega
      exact ⟨o, himgo o ho hom, hoc, hoid⟩
    · rw [List.mem_singleton] at h
      rw [h]
      exact ⟨markMatched next (⟨availablePrimaryKey s.offers, player, bet, c, 0⟩ : Offer),
        himgn, rfl, rfl⟩
  case gameOwnersNe =>
    intro g2 hg2 o1 ho1 o2 ho2 hc1 hc2
    rcases List.mem_append.mp hg2 with h | h
    · obtain ⟨w1, hw1, hw1c, hw1id⟩ := hInv.gameOffer1 g2 h
      obtain ⟨w2, hw2, hw2c, hw2id⟩ := hInv.gameOffer2 g2 h
      have hw1m : w1 ≠ m := by
        intro he
        rw [he] at hw1id
        obtain ⟨n2, _, h1, _⟩ := hInv.gameBound g2 h
        omega
      have hw2m : w2 ≠ m := by
        intro he
        rw [he] at hw2id
        obtain ⟨n2, _, h1, _⟩ := hInv.gameBound g2 h
        omega
      have he1 : o1 = w1 := key_inj Offer.commitment hC3 ho1 (himgo w1 hw1 hw1m)
        (hc1.trans hw1c.symm)
      have he2 : o2 = w2 := key_inj Offer.commitment hC3 ho2 (himgo w2 hw2 hw2m)
        (hc2.trans hw2c.symm)
      rw [he1, he2]
      exact hInv.gameOwnersNe g2 h w1 hw1 w2 hw2 hw1c hw2c
    · rw [List.mem_singleton] at h
      rw [h] at hc1 hc2
      have he1 : o1 = markMatched next m := key_inj Offer.commitment hC3 ho1 himgm hc1
      have he2 : o2 = markMatched next (⟨availablePrimaryKey s.offers, player, bet, c, 0⟩
          : Offer) := key_inj Offer.commitment hC3 ho2 himgn hc2
      rw [he1, he2]
      exact hmo
  case offerAcct =>
    intro o ho
    have hstep2 : ∀ w0, (∃ a ∈ s.accounts, a.owner = w0) →
        ∃ b ∈ modifyAccount (modifyAccount s.accounts m.owner matchedOwnerUpd)
          player (debitMatched bet), b.owner = w0 := by
      intro w0 h
      exact exists_owner_modifyAccount
        (exists_owner_modifyAccount h m.owner matchedOwnerUpd (fun _ => rfl))
        player (debitMatched bet) (fun _ => rfl)
    rcases helim o ho with rfl | rfl | ⟨ho2, _⟩
    · exact hstep2 (markMatched next m).owner (hInv.offerAcct m hm_mem)
    · exact hstep2 player hacct
    · exact hstep2 o.owner (hInv.offerAcct o ho2)
  case counterOffers =>
    intro b hb
    dsimp only at hb ⊢
    obtain ⟨a1, ha1, hcase2⟩ := mem_modifyAccount_elim hb
    obtain ⟨a, ha, hcase1⟩ := mem_modifyAccount_elim ha1
    have hcnt := hInv.counterOffers a ha
    have hc := hcOff a.owner
    rcases hcase1 with ⟨hao, heq1⟩ | ⟨hao, heq1⟩
    · rcases hcase2 with ⟨hao2, heq2⟩ | ⟨hao2, heq2⟩
      · rw [heq1] at hao2
        have hao2b : a.owner = player := hao2
        rw [hao] at hao2b
        exact absurd hao2b hmo
      · rw [heq2, heq1]
        have e1 : (m.owner == a.owner) = true := by simp [hao]
        rw [e1] at hc
        simp only [if_true] at hc
        show openOffersOf _ a.owner ≤ a.open_offers - 1
        omega
    · rcases hcase2 with ⟨hao2, heq2⟩ | ⟨hao2, heq2⟩
      · rw [heq1] at hao2
        rw [heq2, heq1]
        have e1 : (m.owner == a.owner) = false := by
          simp only [beq_eq_false_iff_ne]
          rw [hao2]
          exact hmo
        rw [e1] at hc
        simp only [Bool.false_eq_true, if_false] at hc
        show openOffersOf _ a.owner ≤ a.open_offers
        omega
      · rw [heq2, heq1]
        have e1 : (m.owner == a.owner) = false := by
          simp only [beq_eq_false_iff_ne]
          exact fun h => hao h.symm
        rw [e1] at hc
        simp only [Bool.false_eq_true, if_false] at hc
        omega
  case counterGames =>
    intro b hb
    dsimp only at hb ⊢
    obtain ⟨a1, ha1, hcase2⟩ := mem_modifyAccount_elim hb
    obtain ⟨a, ha, hcase1⟩ := mem_modifyAccount_elim ha1
    have hcnt := hInv.counterGames a ha
    have hc := hcGame a.owner
    rcases hcase1 with ⟨hao, heq1⟩ | ⟨hao, heq1⟩
    · rcases hcase2 with ⟨hao2, heq2⟩ | ⟨hao2, heq2⟩
      · rw [heq1] at hao2
        have hao2b : a.owner = player := hao2
        rw [hao] at hao2b
        exact absurd hao2b hmo
      · rw [heq2, heq1]
        have e1 : (m.owner == a.owner) = true := by simp [hao]
        have e2 : (player == a.owner) = false := by
          simp only [beq_eq_false_iff_ne]
          rw [hao]
          exact fun h => hmo h.symm
        rw [e1, e2] at hc
        simp only [if_true, Bool.false_eq_true, if_false] at hc
        show openGamesOf _ a.owner ≤ a.open_games + 1
        omega
    · rcases hcase2 with ⟨hao2, heq2⟩ | ⟨hao2, heq2⟩
      · rw [heq1] at hao2
        have hao2b : a.owner = player := hao2
        rw [heq2, heq1]
        have e1 : (m.owner == a.owner) = false := by
          simp only [beq_eq_false_iff_ne]
          rw [hao2b]
          exact hmo
        have e2 : (player == a.owner) = true := by simp [hao2b]
        rw [e1, e2] at hc
        simp only [if_true, Bool.false_eq_true, if_false] at hc
        show openGamesOf _ a.owner ≤ a.open_games + 1
        omega
      · rw [heq2, heq1]
        have e1 : (m.owner == a.owner) = false := by
          simp only [beq_eq_false_iff_ne]
          exact fun h => hao h.symm
        rw [heq1] at hao2
        have e2 : (player == a.owner) = false := by
          simp only [beq_eq_false_iff_ne]
          exact fun h => hao2 h.symm
        rw [e1, e2] at hc
        simp only [Bool.false_eq_true, if_false] at hc
        omega
  case revealState =>
    intro g2 hg2
    rcases List.mem_append.mp hg2 with h | h
    · exact hInv.revealState g2 h
    · rw [List.mem_singleton] at h
      rw [h]
      exact ⟨fun _ => ⟨rfl, rfl⟩, Or.inl rfl⟩

theorem inv_onOfferbet {s s' : DiceState} {bet player c : Nat}
    (hInv : Inv s) (hok : onOfferbet s bet player c = .ok s') : Inv s' := by
  unfold onOfferbet at hok
  by_cases hbet : bet = 0
  · rw [if_pos hbet] at hok; cases hok
  rw [if_neg hbet] at hok
  by_cases hdup : hasOffer s.offers c = true
  · rw [if_pos hdup] at hok; cases hok
  rw [if_neg hdup] at hok
  cases hacct : findAccount s.accounts player with
  | none => rw [hacct] at hok; cases hok
  | some acct =>
    simp only [hacct] at hok
    have hpacct : ∃ a ∈ s.accounts, a.owner = player :=
      ⟨acct, findAccount_mem hacct, findAccount_some hacct⟩
    cases hlb : betLowerBound
        (s.offers ++ [(⟨availablePrimaryKey s.offers, player, bet, c, 0⟩ : Offer)]) bet with
    | none =>
      simp only [hlb] at hok
      by_cases hbal : acct.eos_balance < bet
      · rw [if_pos hbal] at hok; cases hok
      · rw [if_neg hbal] at hok
        obtain rfl := Except.ok.inj hok
        exact inv_offerbet_nomatch hInv hbet hdup hpacct
    | some m =>
      simp only [hlb] at hok
      by_cases hcond : (m.bet == bet && m.owner != player) = true
      · rw [if_pos hcond] at hok
        simp only at hok
        rw [Bool.and_eq_true] at hcond
        have hmbet : m.bet = bet := by simpa using hcond.1
        have hmo : m.owner ≠ player := by simpa using hcond.2
        cases hma : findAccount s.accounts m.owner with
        | none => simp only [hma] at hok; cases hok
        | some macct =>
          simp only [hma] at hok
          by_cases hbal : acct.eos_balance < bet
          · rw [if_pos hbal] at hok; cases hok
          · rw [if_neg hbal] at hok
            obtain rfl := Except.ok.inj hok
            have hnext1 : 1 ≤ (match s.global with | none => 0 | some n => n) + 1 :=
              Nat.succ_le_succ (Nat.zero_le _)
            have hnextlt : ∀ g2 ∈ s.games,
                g2.id < (match s.global with | none => 0 | some n => n) + 1 := by
              intro g2 hg2
              obtain ⟨n, hn, _, h2⟩ := hInv.gameBound g2 hg2
              simp only [hn]
              omega
            exact inv_offerbet_match hInv hbet hdup hpacct (betLowerBound_mem hlb)
              hmbet hmo hnext1 hnextlt
      · rw [if_neg hcond] at hok
        simp only at hok
        by_cases hbal : acct.eos_balance < bet
        · rw [if_pos hbal] at hok; cases hok
        · rw [if_neg hbal] at hok
          obtain rfl := Except.ok.inj hok
          exact inv_offerbet_nomatch hInv hbet hdup hpacct

/-- Every reachable state satisfies the contract invariant. -/
theorem reachable_inv {sha : Nat → Nat} {gd : Player → Player → Nat × Nat} {s : DiceState}
    (h : Reachable sha gd s) : Inv s := by
  induction h with
  | init => exact inv_init
  | offerbet _ hok ih => exact inv_onOfferbet ih hok
  | cancel _ hok ih => exact inv_onCancelOffer ih hok
  | reveal _ hok ih => exact inv_onReveal ih hok
  | claimexp _ hok ih => exact inv_onClaimExpired ih hok
  | deposit _ hok ih => exact inv_onDeposit ih hok
  | withdraw _ hok ih => exact inv_onWithdraw ih hok

/-! ### Concrete instances used by witnesses and counterexamples -/

/-- A concrete sha collaborator: the digest of `n` is `n + 1`.  Under it the
zero secret has commitment `1`, mirroring a real player committing to
sha256 of the all-zero buffer. -/
def shaW : Nat → Nat := fun n => n + 1

/-- A concrete outcome-digest collaborator (its value is irrelevant for the
traces that never settle). -/
def gdW : Player → Player → Nat × Nat := fun _ _ => (0, 0)

/-- State reached by: deposit(1,100); deposit(2,100); offerbet(100,1,5);
offerbet(100,2,1); reveal at time 10 of commitment 1 with the zero source.
The final reveal writes a zero into the slot and arms the deadline. -/
def sC7 : DiceState :=
  ⟨[⟨0, 1, 0, 5, 1⟩, ⟨1, 2, 0, 1, 1⟩],
   [⟨1, 100, 310, ⟨5, 0⟩, ⟨1, 0⟩⟩],
   some 1,
   [⟨1, 0, 0, 1⟩, ⟨2, 0, 0, 1⟩]⟩

theorem reachable_sC7 : Reachable shaW gdW sC7 := by
  have h0 : Reachable shaW gdW ⟨[], [], none, []⟩ := Reachable.init
  have e1 : onDeposit (⟨[], [], none, []⟩ : DiceState) 1 100
      = .ok ⟨[], [], none, [⟨1, 100, 0, 0⟩]⟩ := by rfl
  have h1 := Reachable.deposit h0 e1
  have e2 : onDeposit (⟨[], [], none, [⟨1, 100, 0, 0⟩]⟩ : DiceState) 2 100
      = .ok ⟨[], [], none, [⟨1, 100, 0, 0⟩, ⟨2, 100, 0, 0⟩]⟩ := by rfl
  have h2 := Reachable.deposit h1 e2
  have e3 : onOfferbet (⟨[], [], none, [⟨1, 100, 0, 0⟩, ⟨2, 100, 0, 0⟩]⟩ : DiceState) 100 1 5
      = .ok ⟨[⟨0, 1, 100, 5, 0⟩], [], none, [⟨1, 0, 1, 0⟩, ⟨2, 100, 0, 0⟩]⟩ := by rfl
  have h3 := Reachable.offerbet h2 e3
  have e4 : onOfferbet (⟨[⟨0, 1, 100, 5, 0⟩], [], none,
        [⟨1, 0, 1, 0⟩, ⟨2, 100, 0, 0⟩]⟩ : DiceState) 100 2 1
      = .ok ⟨[⟨0, 1, 0, 5, 1⟩, ⟨1, 2, 0, 1, 1⟩],
             [⟨1, 100, 0, ⟨5, 0⟩, ⟨1, 0⟩⟩], some 1,
             [⟨1, 0, 0, 1⟩, ⟨2, 0, 0, 1⟩]⟩ := by rfl
  have h4 := Reachable.offerbet h3 e4
  have e5 : onReveal shaW gdW (⟨[⟨0, 1, 0, 5, 1⟩, ⟨1, 2, 0, 1, 1⟩],
        [⟨1, 100, 0, ⟨5, 0⟩, ⟨1, 0⟩⟩], some 1,
        [⟨1, 0, 0, 1⟩, ⟨2, 0, 0, 1⟩]⟩ : DiceState) 10 1 0
      = .ok sC7 := by rfl
  exact Reachable.reveal h4 e5

/-! ### C7 -/

/-- C7 (counterexample): the spec claims every persisted game's deadline is
zero exactly when no reveal is present.  This fails on a reachable state: a
player who commits to the digest of the all-zero secret and then reveals it
passes `assert_sha256`, but the written reveal equals the `is_zero` sentinel,
so the game keeps both reveal fields zero while `deadline = now + 300` is
armed. -/
theorem C7_counterexample :
    ¬ (∀ (sha : Nat → Nat) (gd : Player → Player → Nat × Nat) (s : DiceState),
      Reachable sha gd s → ∀ g ∈ s.games,
      (g.player1.reveal = 0 ∨ g.player2.reveal = 0) ∧
      (g.deadline = 0 ↔ (g.player1.reveal = 0 ∧ g.player2.reveal = 0))) := by
  intro hall
  have h := hall shaW gdW sC7 reachable_sC7 ⟨1, 100, 310, ⟨5, 0⟩, ⟨1, 0⟩⟩
    (List.mem_singleton.mpr rfl)
  have h2 := h.2.mpr ⟨rfl, rfl⟩
  simp at h2

/-- C7 (amended): in every reachable state every persisted game has at most
one non-zero reveal, and a game with deadline 0 has no reveal written; the
converse direction (no reveal written → deadline 0) is the part refuted by
the zero-secret reveal. -/
theorem C7_amended {sha : Nat → Nat} {gd : Player → Player → Nat × Nat} {s : DiceState}
    (h : Reachable sha gd s) :
    ∀ g ∈ s.games, (g.player1.reveal = 0 ∨ g.player2.reveal = 0) ∧
      (g.deadline = 0 → g.player1.reveal = 0 ∧ g.player2.reveal = 0) := by
  intro g hg
  have hi := (reachable_inv h).revealState g hg
  exact ⟨hi.2, hi.1⟩

theorem C7_amended_witness :
    ((⟨1, 100, 310, ⟨5, 0⟩, ⟨1, 0⟩⟩ : Game).player1.reveal = 0 ∨
      (⟨1, 100, 310, ⟨5, 0⟩, ⟨1, 0⟩⟩ : Game).player2.reveal = 0) ∧
    ((⟨1, 100, 310, ⟨5, 0⟩, ⟨1, 0⟩⟩ : Game).deadline = 0 →
      (⟨1, 100, 310, ⟨5, 0⟩, ⟨1, 0⟩⟩ : Game).player1.reveal = 0 ∧
      (⟨1, 100, 310, ⟨5, 0⟩, ⟨1, 0⟩⟩ : Game).player2.reveal = 0) :=
  C7_amended reachable_sC7 ⟨1, 100, 310, ⟨5, 0⟩, ⟨1, 0⟩⟩ (by decide)

/-! ### C8 -/

/-- C8: in every reachable state no two offers of the table share a
commitment, and placing an offer with a positive stake and an
already-present commitment fails with the duplicate-commitment abort. -/
theorem C8_commitment_injective {sha : Nat → Nat} {gd : Player → Player → Nat × Nat}
    {s : DiceState} (h : Reachable sha gd s) :
    ((s.offers.map Offer.commitment).Nodup) ∧
    (∀ bet player c, 0 < bet → hasOffer s.offers c = true →
      onOfferbet s bet player c = .error .duplicateCommitment) := by
  refine ⟨(reachable_inv h).commNodup, ?_⟩
  intro bet player c hbet hdup
  unfold onOfferbet
  rw [if_neg (by omega), if_pos hdup]

theorem C8_witness :
    ((sC7.offers.map Offer.commitment).Nodup) ∧
    onOfferbet sC7 100 9 5 = .error .duplicateCommitment := by
  refine ⟨(C8_commitment_injective reachable_sC7).1, ?_⟩
  exact (C8_commitment_injective reachable_sC7).2 100 9 5 (by decide) (by rfl)

/-! ### C9 -/

/-- C9: reachable states satisfy the referential integrity the spec claims —
a matched offer's `gameid` names a persisted game, each game's two commitments
are backed by offer rows pointing back at the game, every offer owner has an
account row — and consequently the unguarded commitment-index and account
lookups performed by `reveal` and `claimexpired` (and the `pay_and_clean`
they invoke) can never dereference a failed `find`. -/
theorem C9_referential_integrity {sha : Nat → Nat} {gd : Player → Player → Nat × Nat}
    {s : DiceState} (h : Reachable sha gd s) :
    (∀ o ∈ s.offers, o.gameid ≠ 0 → ∃ g ∈ s.games, g.id = o.gameid) ∧
    (∀ g ∈ s.games,
      (∃ o ∈ s.offers, o.commitment = g.player1.commitment ∧ o.gameid = g.id) ∧
      (∃ o ∈ s.offers, o.commitment = g.player2.commitment ∧ o.gameid = g.id)) ∧
    (∀ o ∈ s.offers, ∃ a ∈ s.accounts, a.owner = o.owner) ∧
    (∀ now c src, onReveal sha gd s now c src ≠ .error .missingRecord) ∧
    (∀ now gid, onClaimExpired s now gid ≠ .error .missingRecord) := by
  have hInv := reachable_inv h
  refine ⟨?_, ?_, hInv.offerAcct, ?_, ?_⟩
  · intro o ho hg
    obtain ⟨g, hgmem, hgid, _⟩ := hInv.offerGame o ho hg
    exact ⟨g, hgmem, hgid⟩
  · intro g hg
    exact ⟨hInv.gameOffer1 g hg, hInv.gameOffer2 g hg⟩
  · intro now c src heq
    unfold onReveal at heq
    by_cases hsha : sha src ≠ c
    · rw [if_pos hsha] at heq; simp at heq
    rw [if_neg hsha] at heq
    cases hoff : findOfferByCommitment s.offers c with
    | none => rw [hoff] at heq; simp at heq
    | some off =>
      simp only [hoff] at heq
      by_cases hg0 : off.gameid = 0
      · rw [if_pos hg0] at heq; simp at heq
      rw [if_neg hg0] at heq
      have hoffmem := findOfferByCommitment_mem hoff
      have hoffc := findOfferByCommitment_some hoff
      obtain ⟨g2, hg2, hg2id, hcin⟩ := hInv.offerGame off hoffmem hg0
      obtain ⟨g, hgf⟩ := findGame_isSome ⟨g2, hg2, hg2id⟩
      simp only [hgf] at heq
      have hgmem := findGame_mem hgf
      have hgid : g.id = off.gameid := findGame_some hgf
      have hgg : g2 = g := key_inj Game.id hInv.gamesIdNodup hg2 hgmem (by omega)
      rw [hgg] at hcin
      by_cases hc1 : (g.player1.commitment == c) = true
      · rw [if_pos hc1] at heq
        simp only at heq
        have hc1e : g.player1.commitment = c := by simpa using hc1
        by_cases hcurr : g.player1.reveal ≠ 0
        · rw [if_pos hcurr] at heq; simp at heq
        rw [if_neg hcurr] at heq
        by_cases hprev : g.player2.reveal ≠ 0
        · rw [if_pos hprev] at heq
          obtain ⟨ow, how, howc, _⟩ := hInv.gameOffer2 g hgmem
          obtain ⟨prevOff, hpo⟩ := findOfferByCommitment_isSome ⟨ow, how, howc⟩
          simp only [hpo] at heq
          have hpomem := findOfferByCommitment_mem hpo
          have hpoc := findOfferByCommitment_some hpo
          have hoffc1 : off.commitment = g.player1.commitment := by rw [hoffc, hc1e]
          have hone : off.owner ≠ prevOff.owner :=
            hInv.gameOwnersNe g hgmem off hoffmem prevOff hpomem hoffc1 hpoc
          by_cases hd : (gd g.player1 g.player2).2 < (gd g.player1 g.player2).1
          · rw [if_pos hd] at heq
            obtain ⟨s2, hs2⟩ := payAndClean_ok (hInv.offerAcct prevOff hpomem)
              (hInv.offerAcct off hoffmem) hone
            rw [hs2] at heq; simp at heq
          · rw [if_neg hd] at heq
            obtain ⟨s2, hs2⟩ := payAndClean_ok (hInv.offerAcct off hoffmem)
              (hInv.offerAcct prevOff hpomem) (Ne.symm hone)
            rw [hs2] at heq; simp at heq
        · rw [if_neg hprev] at heq; simp at heq
      · rw [if_neg hc1] at heq
        simp only at heq
        have hc2e : off.commitment = g.player2.commitment := by
          rcases hcin with h2 | h2
          · exact absurd (by simp [← h2, hoffc]) hc1
          · exact h2
        by_cases hcurr : g.player2.reveal ≠ 0
        · rw [if_pos hcurr] at heq; simp at heq
        rw [if_neg hcurr] at heq
        by_cases hprev : g.player1.reveal ≠ 0
        · rw [if_pos hprev] at heq
          obtain ⟨ow, how, howc, _⟩ := hInv.gameOffer1 g hgmem
          obtain ⟨prevOff, hpo⟩ := findOfferByCommitment_isSome ⟨ow, how, howc⟩
          simp only [hpo] at heq
          have hpomem := findOfferByCommitment_mem hpo
          have hpoc := findOfferByCommitment_some hpo
          have hone : prevOff.owner ≠ off.owner :=
            hInv.gameOwnersNe g hgmem prevOff hpomem off hoffmem hpoc hc2e
          by_cases hd : (gd g.player1 g.player2).2 < (gd g.player1 g.player2).1
          · rw [if_pos hd] at heq
            obtain ⟨s2, hs2⟩ := payAndClean_ok (hInv.offerAcct prevOff hpomem)
              (hInv.offerAcct off hoffmem) (Ne.symm hone)
            rw [hs2] at heq; simp at heq
          · rw [if_neg hd] at heq
            obtain ⟨s2, hs2⟩ := payAndClean_ok (hInv.offerAcct off hoffmem)
              (hInv.offerAcct prevOff hpomem) hone
            rw [hs2] at heq; simp at heq
        · rw [if_neg hprev] at heq; simp at heq
  · intro now gid heq
    unfold onClaimExpired at heq
    cases hgf : findGame s.games gid with
    | none => rw [hgf] at heq; simp at heq
    | some g =>
      simp only [hgf] at heq
      by_cases hexp : g.deadline = 0 ∨ ¬ (g.deadline < now)
      · rw [if_pos hexp] at heq; simp at heq
      rw [if_neg hexp] at heq
      have hgmem := findGame_mem hgf
      obtain ⟨w1, hw1, hw1c, _⟩ := hInv.gameOffer1 g hgmem
      obtain ⟨w2, hw2, hw2c, _⟩ := hInv.gameOffer2 g hgmem
      obtain ⟨o1, hf1⟩ := findOfferByCommitment_isSome ⟨w1, hw1, hw1c⟩
      obtain ⟨o2, hf2⟩ := findOfferByCommitment_isSome ⟨w2, hw2, hw2c⟩
      simp only [hf1, hf2] at heq
      have h1mem := findOfferByCommitment_mem hf1
      have h2mem := findOfferByCommitment_mem hf2
      have hone : o1.owner ≠ o2.owner :=
        hInv.gameOwnersNe g hgmem o1 h1mem o2 h2mem
          (findOfferByCommitment_some hf1) (findOfferByCommitment_some hf2)
      by_cases hr1 : g.player1.reveal ≠ 0
      · rw [if_pos hr1] at heq
        by_cases hr2 : g.player2.reveal ≠ 0
        · rw [if_pos hr2] at heq; simp at heq
        rw [if_neg hr2] at heq
        obtain ⟨s2, hs2⟩ := payAndClean_ok (hInv.offerAcct o1 h1mem)
          (hInv.offerAcct o2 h2mem) (Ne.symm hone)
        rw [hs2] at heq; simp at heq
      · rw [if_neg hr1] at heq
        rw [if_neg hr1] at heq
        obtain ⟨s2, hs2⟩ := payAndClean_ok (hInv.offerAcct o2 h2mem)
          (hInv.offerAcct o1 h1mem) hone
        rw [hs2] at heq; simp at heq

theorem C9_witness :
    (∀ o ∈ sC7.offers, o.gameid ≠ 0 → ∃ g ∈ sC7.games, g.id = o.gameid) ∧
    (∀ g ∈ sC7.games,
      (∃ o ∈ sC7.offers, o.commitment = g.player1.commitment ∧ o.gameid = g.id) ∧
      (∃ o ∈ sC7.offers, o.commitment = g.player2.commitment ∧ o.gameid = g.id)) ∧
    (∀ o ∈ sC7.offers, ∃ a ∈ sC7.accounts, a.owner = o.owner) ∧
    (∀ now c src, onReveal shaW gdW sC7 now c src ≠ .error .missingRecord) ∧
    (∀ now gid, onClaimExpired sC7 now gid ≠ .error .missingRecord) :=
  C9_referential_integrity reachable_sC7

/-! ### Settlement bookkeeping (shared by C1 and C6) -/

/-- Full account-level characterization of a successful `pay_and_clean`:
the winner's row is credited `2 * bet` and its `open_games` decremented, the
loser's row has only `open_games` decremented (balance untouched) and is
erased exactly when it became empty, and the game plus both offer rows are
erased. -/
theorem payAndClean_finds {s : DiceState} {g : Game} {wo lo : Offer} {wa la : Account}
    (hw : findAccount s.accounts wo.owner = some wa)
    (hl : findAccount s.accounts lo.owner = some la)
    (hne : lo.owner ≠ wo.owner) :
    ∃ s', payAndClean s g wo lo = .ok s' ∧
      findAccount s'.accounts wo.owner = some (creditWinner g.bet wa) ∧
      (if (decGames la).is_empty then findAccount s'.accounts lo.owner = none
       else findAccount s'.accounts lo.owner = some (decGames la)) ∧
      s'.games = eraseGameById s.games g.id ∧
      s'.offers = eraseOfferById (eraseOfferById s.offers wo.id) lo.id ∧
      s'.global = s.global := by
  refine ⟨_, payAndClean_eq hw hl hne, ?_, ?_, rfl, rfl, rfl⟩
  · show findAccount
      (if (decGames la).is_empty
       then eraseAccount (modifyAccount
          (modifyAccount s.accounts wo.owner (creditWinner g.bet)) lo.owner decGames) lo.owner
       else modifyAccount
          (modifyAccount s.accounts wo.owner (creditWinner g.bet)) lo.owner decGames)
      wo.owner = some (creditWinner g.bet wa)
    have hbase : findAccount (modifyAccount
        (modifyAccount s.accounts wo.owner (creditWinner g.bet)) lo.owner decGames)
        wo.owner = some (creditWinner g.bet wa) := by
      rw [findAccount_modifyAccount_ne decGames (fun _ => rfl) (Ne.symm hne)]
      exact findAccount_modifyAccount_self (creditWinner g.bet) (fun _ => rfl) hw
    by_cases he : (decGames la).is_empty
    · rw [if_pos he, findAccount_eraseAccount_ne (Ne.symm hne)]
      exact hbase
    · rw [if_neg he]
      exact hbase
  · have hbase : findAccount (modifyAccount
        (modifyAccount s.accounts wo.owner (creditWinner g.bet)) lo.owner decGames)
        lo.owner = some (decGames la) := by
      refine findAccount_modifyAccount_self decGames (fun _ => rfl) ?_
      rw [findAccount_modifyAccount_ne (creditWinner g.bet) (fun _ => rfl) hne]
      exact hl
    by_cases he : (decGames la).is_empty
    · rw [if_pos he]
      show findAccount (if (decGames la).is_empty then _ else _) lo.owner = none
      rw [if_pos he]
      exact findAccount_eraseAccount_self _ _
    · rw [if_neg he]
      show findAccount (if (decGames la).is_empty then _ else _) lo.owner
        = some (decGames la)
      rw [if_neg he]
      exact hbase

/-! ### C6 -/

/-- C6: `pay_and_clean` pays the winner twice the stake into its account,
erases the game and both linked offers, decrements both players' `open_games`
(the loser's balance is untouched), and drops the loser's account row exactly
when it became completely empty.  The winner's row is never dropped: it just
received the pot. -/
theorem C6_settlement {s : DiceState} {g : Game} {wo lo : Offer} {wa la : Account}
    (hw : findAccount s.accounts wo.owner = some wa)
    (hl : findAccount s.accounts lo.owner = some la)
    (hne : lo.owner ≠ wo.owner) :
    ∃ s', payAndClean s g wo lo = .ok s' ∧
      findAccount s'.accounts wo.owner = some
        { wa with eos_balance := wa.eos_balance + 2 * g.bet,
                  open_games := wa.open_games - 1 } ∧
      (let la' : Account := { la with open_games := la.open_games - 1 }
       if la'.is_empty then findAccount s'.accounts lo.owner = none
       else findAccount s'.accounts lo.owner = some la') ∧
      s'.games = eraseGameById s.games g.id ∧
      s'.offers = eraseOfferById (eraseOfferById s.offers wo.id) lo.id ∧
      s'.global = s.global := by
  obtain ⟨s2, hok, hwin, hlose, hgames, hoffers, hglob⟩ := payAndClean_finds hw hl hne
  exact ⟨s2, hok, hwin, hlose, hgames, hoffers, hglob⟩

theorem C6_witness :
    ∃ s', payAndClean (⟨[⟨0, 1, 0, 5, 1⟩, ⟨1, 2, 0, 1, 1⟩],
        [⟨1, 100, 310, ⟨5, 0⟩, ⟨1, 7⟩⟩], some 1,
        [⟨1, 30, 0, 1⟩, ⟨2, 0, 0, 1⟩]⟩ : DiceState)
        ⟨1, 100, 310, ⟨5, 0⟩, ⟨1, 7⟩⟩ ⟨1, 2, 0, 1, 1⟩ ⟨0, 1, 0, 5, 1⟩ = .ok s' ∧
      findAccount s'.accounts 2 = some ⟨2, 200, 0, 0⟩ ∧
      (let la' : Account := ⟨1, 30, 0, 0⟩
       if la'.is_empty then findAccount s'.accounts 1 = none
       else findAccount s'.accounts 1 = some la') ∧
      s'.games = [] ∧
      s'.offers = [] ∧
      s'.global = some 1 :=
  @C6_settlement ⟨[⟨0, 1, 0, 5, 1⟩, ⟨1, 2, 0, 1, 1⟩],
      [⟨1, 100, 310, ⟨5, 0⟩, ⟨1, 7⟩⟩], some 1,
      [⟨1, 30, 0, 1⟩, ⟨2, 0, 0, 1⟩]⟩ ⟨1, 100, 310, ⟨5, 0⟩, ⟨1, 7⟩⟩
    ⟨1, 2, 0, 1, 1⟩ ⟨0, 1, 0, 5, 1⟩ ⟨2, 0, 0, 1⟩ ⟨1, 30, 0, 1⟩ rfl rfl (by decide)

/-! ### C1 -/

/-- Outcome digest used in the C1 scenario: byte 0 is 5, byte 1 is 3, so
`hash[1] < hash[0]` holds and the spec says the slot-1 player must win. -/
def gdC1 : Player → Player → Nat × Nat := fun _ _ => (5, 3)

/-- A matched game whose slot-2 player (owner 2, commitment 1) has already
revealed (reveal 7); the slot-1 player (owner 1, commitment 5) resolves. -/
def sC1 : DiceState :=
  ⟨[⟨0, 1, 0, 5, 1⟩, ⟨1, 2, 0, 1, 1⟩],
   [⟨1, 100, 310, ⟨5, 0⟩, ⟨1, 7⟩⟩],
   some 1,
   [⟨1, 0, 0, 1⟩, ⟨2, 0, 0, 1⟩]⟩

/-- C1 (counterexample): the spec says `hash[1] < hash[0]` makes the slot-1
player (`game.player1`) the winner.  In this run `hash[1] = 3 < 5 = hash[0]`,
yet slot 1's owner (account 1) receives nothing — its emptied account row is
even erased — while slot 2's owner (account 2), who merely revealed first, is
credited the whole pot of 200.  The source pays `offer_itr` (the first
revealer) on `hash[1] < hash[0]`, regardless of which slot that player
occupies. -/
theorem C1_counterexample :
    onReveal shaW gdC1 sC1 0 5 4 = .ok ⟨[], [], some 1, [⟨2, 200, 0, 0⟩]⟩ ∧
    (gdC1 ⟨5, 0⟩ ⟨1, 7⟩).2 < (gdC1 ⟨5, 0⟩ ⟨1, 7⟩).1 ∧
    sC1.games = [⟨1, 100, 310, ⟨5, 0⟩, ⟨1, 7⟩⟩] ∧
    findOfferByCommitment sC1.offers 5 = some ⟨0, 1, 0, 5, 1⟩ ∧
    findAccount (⟨[], [], some 1, [⟨2, 200, 0, 0⟩]⟩ : DiceState).accounts 1 = none := by
  exact ⟨by rfl, by decide, rfl, by rfl, rfl⟩

/-- C1 (amended): on the resolving reveal the contract compares the digest
bytes and pays `pay_and_clean` with the FIRST REVEALER's offer as winner when
`hash[1] < hash[0]`, and the resolving (second) revealer's offer as winner
otherwise — the roles are reveal-order relative, not slot-1/slot-2 as the
spec claims. -/
theorem C1_amended {sha : Nat → Nat} {gd : Player → Player → Nat × Nat}
    {s : DiceState} {now c src : Nat} {off prevOff : Offer} {g : Game} {ca pa : Account}
    (hsha : sha src = c)
    (hoff : findOfferByCommitment s.offers c = some off)
    (hgid0 : off.gameid ≠ 0)
    (hg : findGame s.games off.gameid = some g)
    (hcase :
      (g.player1.commitment = c ∧ g.player1.reveal = 0 ∧ g.player2.reveal ≠ 0 ∧
        findOfferByCommitment s.offers g.player2.commitment = some prevOff) ∨
      (g.player1.commitment ≠ c ∧ g.player2.reveal = 0 ∧ g.player1.reveal ≠ 0 ∧
        findOfferByCommitment s.offers g.player1.commitment = some prevOff))
    (hca : findAccount s.accounts off.owner = some ca)
    (hpa : findAccount s.accounts prevOff.owner = some pa)
    (hne : off.owner ≠ prevOff.owner) :
    ∃ s', onReveal sha gd s now c src = .ok s' ∧
      ((gd g.player1 g.player2).2 < (gd g.player1 g.player2).1 →
        ∃ a, findAccount s'.accounts prevOff.owner = some a ∧
          a.eos_balance = pa.eos_balance + 2 * g.bet) ∧
      (¬ (gd g.player1 g.player2).2 < (gd g.player1 g.player2).1 →
        ∃ a, findAccount s'.accounts off.owner = some a ∧
          a.eos_balance = ca.eos_balance + 2 * g.bet) := by
  unfold onReveal
  rw [if_neg (by simp [hsha])]
  simp only [hoff]
  rw [if_neg hgid0]
  simp only [hg]
  rcases hcase with ⟨hA1, hA2, hA3, hA4⟩ | ⟨hB1, hB2, hB3, hB4⟩
  · rw [if_pos (show (g.player1.commitment == c) = true by simp [hA1])]
    simp only
    rw [if_neg (show ¬ g.player1.reveal ≠ 0 by simp [hA2])]
    rw [if_pos hA3]
    simp only [hA4]
    by_cases hd : (gd g.player1 g.player2).2 < (gd g.player1 g.player2).1
    · rw [if_pos hd]
      obtain ⟨s2, hok, hwin, _⟩ := payAndClean_finds hpa hca hne
      exact ⟨s2, hok, fun _ => ⟨_, hwin, rfl⟩, fun hd2 => absurd hd hd2⟩
    · rw [if_neg hd]
      obtain ⟨s2, hok, hwin, _⟩ := payAndClean_finds hca hpa (Ne.symm hne)
      exact ⟨s2, hok, fun hd2 => absurd hd2 hd, fun _ => ⟨_, hwin, rfl⟩⟩
  · rw [if_neg (show ¬ (g.player1.commitment == c) = true by simp [hB1])]
    simp only
    rw [if_neg (show ¬ g.player2.reveal ≠ 0 by simp [hB2])]
    rw [if_pos hB3]
    simp only [hB4]
    by_cases hd : (gd g.player1 g.player2).2 < (gd g.player1 g.player2).1
    · rw [if_pos hd]
      obtain ⟨s2, hok, hwin, _⟩ := payAndClean_finds hpa hca hne
      exact ⟨s2, hok, fun _ => ⟨_, hwin, rfl⟩, fun hd2 => absurd hd hd2⟩
    · rw [if_neg hd]
      obtain ⟨s2, hok, hwin, _⟩ := payAndClean_finds hca hpa (Ne.symm hne)
      exact ⟨s2, hok, fun hd2 => absurd hd2 hd, fun _ => ⟨_, hwin, rfl⟩⟩

theorem C1_amended_witness :
    ∃ s', onReveal shaW gdC1 sC1 0 5 4 = .ok s' ∧
      ((gdC1 ⟨5, 0⟩ ⟨1, 7⟩).2 < (gdC1 ⟨5, 0⟩ ⟨1, 7⟩).1 →
        ∃ a, findAccount s'.accounts 2 = some a ∧ a.eos_balance = 0 + 2 * 100) ∧
      (¬ (gdC1 ⟨5, 0⟩ ⟨1, 7⟩).2 < (gdC1 ⟨5, 0⟩ ⟨1, 7⟩).1 →
        ∃ a, findAccount s'.accounts 1 = some a ∧ a.eos_balance = 0 + 2 * 100) :=
  @C1_amended shaW gdC1 sC1 0 5 4 ⟨0, 1, 0, 5, 1⟩ ⟨1, 2, 0, 1, 1⟩
    ⟨1, 100, 310, ⟨5, 0⟩, ⟨1, 7⟩⟩ ⟨1, 0, 0, 1⟩ ⟨2, 0, 0, 1⟩
    rfl rfl (by decide) rfl (Or.inl ⟨rfl, rfl, by decide, rfl⟩) rfl rfl (by decide)

/-! ### C2 -/

/-- sha collaborator for C2: sources 2 and 6 both hash to commitment 3; the
slot-1 commitment 14 is the hash of source 4. -/
def sha2 : Nat → Nat := fun n => if n == 2 || n == 6 then 3 else n + 10

/-- Outcome digest for C2 that discriminates on whether the second player's
reveal field is populated: it yields `(0, 1)` (second revealer wins) when the
slot is still zero and `(1, 0)` (first revealer wins) otherwise. -/
def gd2 : Player → Player → Nat × Nat := fun _ q => if q.reveal == 0 then (0, 1) else (1, 0)

/-- Matched game for C2: player 1 (commitment 14) already revealed source 4;
player 2 (commitment 3) resolves. -/
def sC2 : DiceState :=
  ⟨[⟨0, 1, 0, 14, 1⟩, ⟨1, 2, 0, 3, 1⟩],
   [⟨1, 100, 310, ⟨14, 4⟩, ⟨3, 0⟩⟩],
   some 1,
   [⟨1, 0, 0, 1⟩, ⟨2, 0, 0, 1⟩]⟩

/-- C2: the spec says the outcome digest is sha256 over BOTH revealed
secrets.  In the source the resolving secret is never stored into the game
row before `sha256((char *)&game_itr->player1, ...)` runs, so the digest sees
the resolver's reveal slot still zeroed: two different resolving secrets (2
and 6, both matching commitment 3) produce bit-identical settlements, even
though the digest function visibly discriminates between a populated and an
unpopulated second reveal slot.  The second secret cannot influence the
outcome. -/
theorem C2_second_secret_ignored :
    onReveal sha2 gd2 sC2 400 3 2 = .ok ⟨[], [], some 1, [⟨2, 200, 0, 0⟩]⟩ ∧
    onReveal sha2 gd2 sC2 400 3 6 = .ok ⟨[], [], some 1, [⟨2, 200, 0, 0⟩]⟩ ∧
    sha2 2 = 3 ∧ sha2 6 = 3 ∧ (2 : Nat) ≠ 6 ∧
    gd2 ⟨14, 4⟩ ⟨3, 2⟩ ≠ gd2 ⟨14, 4⟩ ⟨3, 0⟩ ∧
    gd2 ⟨14, 4⟩ ⟨3, 6⟩ ≠ gd2 ⟨14, 4⟩ ⟨3, 0⟩ := by
  exact ⟨by rfl, by rfl, by rfl, by rfl, by decide, by decide, by decide⟩

/-! ### C4 -/

/-- Expired matched game (deadline 5) in which NEITHER player has revealed. -/
def sC4 : DiceState :=
  ⟨[⟨0, 1, 0, 5, 1⟩, ⟨1, 2, 0, 3, 1⟩],
   [⟨1, 100, 5, ⟨5, 0⟩, ⟨3, 0⟩⟩],
   some 1,
   [⟨1, 0, 0, 1⟩, ⟨2, 0, 0, 1⟩]⟩

/-- C4: the spec says `claimexpired` on an expired game in which neither
player revealed aborts with "game error".  The source's else-branch asserts
`is_zero(game_itr->player1.reveal)` — a tautology on that branch — instead of
checking player 2's reveal, so the neither-revealed game settles: player 2's
offer is passed to `pay_and_clean` as the winner and account 2 collects the
whole pot of 200.  (Such a state is reachable: a zero-secret reveal arms the
deadline while leaving both reveal fields zero, see the C7 trace.) -/
theorem C4_no_reveal_expiry_settles :
    onClaimExpired sC4 10 1 = .ok ⟨[], [], some 1, [⟨2, 200, 0, 0⟩]⟩ ∧
    sC4.games = [⟨1, 100, 5, ⟨5, 0⟩, ⟨3, 0⟩⟩] ∧
    (⟨1, 100, 5, ⟨5, 0⟩, ⟨3, 0⟩⟩ : Game).player1.reveal = 0 ∧
    (⟨1, 100, 5, ⟨5, 0⟩, ⟨3, 0⟩⟩ : Game).player2.reveal = 0 ∧
    findAccount (⟨[], [], some 1, [⟨2, 200, 0, 0⟩]⟩ : DiceState).accounts 1 = none := by
  exact ⟨by rfl, rfl, rfl, rfl, rfl⟩

/-! ### C3 -/

/-- Offer table holding an equal-stake offer by owner 2 (id 1) alongside a
lower-id equal-stake offer by owner 1 (id 0); owner 1 places another bet. -/
def sC3 : DiceState :=
  ⟨[⟨0, 1, 100, 11, 0⟩, ⟨1, 2, 100, 12, 0⟩],
   [], none,
   [⟨1, 100, 1, 0⟩, ⟨2, 0, 1, 0⟩]⟩

/-- C3 (counterexample): the spec says that whenever an equal-stake offer by
a DIFFERENT owner exists, the incoming bet is matched.  Owner 2's open offer
(id 1, stake 100) exists, yet owner 1's new stake-100 bet is simply queued
and no game is created: the single `lower_bound` probe lands on owner 1's own
offer (id 0) and the code gives up instead of scanning past it. -/
theorem C3_counterexample :
    onOfferbet sC3 100 1 13 =
      .ok ⟨[⟨0, 1, 100, 11, 0⟩, ⟨1, 2, 100, 12, 0⟩, ⟨2, 1, 100, 13, 0⟩],
           [], none, [⟨1, 0, 2, 0⟩, ⟨2, 0, 1, 0⟩]⟩ ∧
    (⟨1, 2, 100, 12, 0⟩ : Offer) ∈ sC3.offers ∧
    (⟨1, 2, 100, 12, 0⟩ : Offer).bet = 100 ∧
    (⟨1, 2, 100, 12, 0⟩ : Offer).owner ≠ 1 := by
  exact ⟨by rfl, by decide, rfl, by decide⟩

/-- C3 (amended): matching considers ONLY the `(bet, id)`-least offer of
stake at least `bet` (the `lower_bound` hit over the table including the
just-emplaced row).  If that single candidate has a different stake or is
owned by the bettor himself, the bet is queued unmatched even when another
eligible equal-stake offer exists; a game is created only when that least
candidate itself has equal stake and a different owner. -/
theorem C3_amended {s : DiceState} {bet player c : Nat} {acct : Account}
    (hbet : bet ≠ 0) (hdup : hasOffer s.offers c = false)
    (hacct : findAccount s.accounts player = some acct) :
    (∀ m, betLowerBound (s.offers ++ [⟨availablePrimaryKey s.offers, player, bet, c, 0⟩]) bet
        = some m →
      m ∈ s.offers ++ [⟨availablePrimaryKey s.offers, player, bet, c, 0⟩] ∧ bet ≤ m.bet ∧
      ∀ o ∈ s.offers ++ [⟨availablePrimaryKey s.offers, player, bet, c, 0⟩], bet ≤ o.bet →
        ¬ (o.bet < m.bet ∨ (o.bet = m.bet ∧ o.id < m.id))) ∧
    (∀ m, betLowerBound (s.offers ++ [⟨availablePrimaryKey s.offers, player, bet, c, 0⟩]) bet
        = some m →
      (¬ m.bet = bet ∨ m.owner = player) → ¬ acct.eos_balance < bet →
      onOfferbet s bet player c = .ok
        { s with offers := s.offers ++ [⟨availablePrimaryKey s.offers, player, bet, c, 0⟩],
                 accounts := modifyAccount s.accounts player (debitQueued bet) }) ∧
    (∀ m, betLowerBound (s.offers ++ [⟨availablePrimaryKey s.offers, player, bet, c, 0⟩]) bet
        = some m →
      m.bet = bet → m.owner ≠ player → (∃ a ∈ s.accounts, a.owner = m.owner) →
      ¬ acct.eos_balance < bet →
      ∃ s', onOfferbet s bet player c = .ok s' ∧
        s'.games = s.games ++
          [⟨(match s.global with | none => 0 | some n => n) + 1, bet, 0,
            ⟨m.commitment, 0⟩, ⟨c, 0⟩⟩]) := by
  refine ⟨?_, ?_, ?_⟩
  · intro m hm
    refine ⟨betLowerBound_mem hm, betLowerBound_le hm, ?_⟩
    intro o ho hle
    have hk := betLowerBound_min hm o ho hle
    rw [← betKeyLt_iff]
    simp [hk]
  · intro m hm hcond hnb
    have hbool : (m.bet == bet && m.owner != player) = false := by
      rcases hcond with h2 | h2 <;> simp [h2]
    unfold onOfferbet
    rw [if_neg hbet]
    rw [if_neg (show ¬ hasOffer s.offers c = true by simp [hdup])]
    simp only [hacct, hm, hbool, Bool.false_eq_true, if_false]
    rw [if_neg hnb]
  · intro m hm hmb hmo hex hnb
    have hbool : (m.bet == bet && m.owner != player) = true := by
      simp [hmb, hmo]
    obtain ⟨ma, hma⟩ := findAccount_isSome hex
    unfold onOfferbet
    rw [if_neg hbet]
    rw [if_neg (show ¬ hasOffer s.offers c = true by simp [hdup])]
    simp only [hacct, hm, hbool, if_true, hma]
    rw [if_neg hnb]
    exact ⟨_, rfl, rfl⟩

theorem C3_amended_witness :
    (∀ m, betLowerBound (sC3.offers ++ [⟨availablePrimaryKey sC3.offers, 1, 100, 13, 0⟩]) 100
        = some m →
      m ∈ sC3.offers ++ [⟨availablePrimaryKey sC3.offers, 1, 100, 13, 0⟩] ∧ 100 ≤ m.bet ∧
      ∀ o ∈ sC3.offers ++ [⟨availablePrimaryKey sC3.offers, 1, 100, 13, 0⟩], 100 ≤ o.bet →
        ¬ (o.bet < m.bet ∨ (o.bet = m.bet ∧ o.id < m.id))) ∧
    (∀ m, betLowerBound (sC3.offers ++ [⟨availablePrimaryKey sC3.offers, 1, 100, 13, 0⟩]) 100
        = some m →
      (¬ m.bet = 100 ∨ m.owner = 1) → ¬ (⟨1, 100, 1, 0⟩ : Account).eos_balance < 100 →
      onOfferbet sC3 100 1 13 = .ok
        { sC3 with
            offers := sC3.offers ++ [⟨availablePrimaryKey sC3.offers, 1, 100, 13, 0⟩],
            accounts := modifyAccount sC3.accounts 1 (debitQueued 100) }) ∧
    (∀ m, betLowerBound (sC3.offers ++ [⟨availablePrimaryKey sC3.offers, 1, 100, 13, 0⟩]) 100
        = some m →
      m.bet = 100 → m.owner ≠ 1 → (∃ a ∈ sC3.accounts, a.owner = m.owner) →
      ¬ (⟨1, 100, 1, 0⟩ : Account).eos_balance < 100 →
      ∃ s', onOfferbet sC3 100 1 13 = .ok s' ∧
        s'.games = sC3.games ++
          [⟨(match sC3.global with | none => 0 | some n => n) + 1, 100, 0,
            ⟨m.commitment, 0⟩, ⟨13, 0⟩⟩]) :=
  C3_amended (by decide) (by rfl) rfl

/-! ### C5 -/

/-- Owner 1 has an open stake-100 offer but only 40 left on balance (the 100
stake was debited when the offer was placed); owner 2 arrives with a matching
stake-100 bet. -/
def sC5 : DiceState :=
  ⟨[⟨0, 1, 100, 11, 0⟩], [], none,
   [⟨1, 40, 1, 0⟩, ⟨2, 100, 0, 0⟩]⟩

/-- C5 (counterexample): the spec says that on a match the stake is debited
from BOTH players' balances.  Here the match succeeds and creates the game,
yet the matched offer's owner (account 1) keeps its balance of 40 — less than
the stake itself — untouched; only the placing player (account 2) is debited.
The matched owner's stake was taken when the offer was placed, not at match
time. -/
theorem C5_counterexample :
    onOfferbet sC5 100 2 12 =
      .ok ⟨[⟨0, 1, 0, 11, 1⟩, ⟨1, 2, 0, 12, 1⟩],
           [⟨1, 100, 0, ⟨11, 0⟩, ⟨12, 0⟩⟩], some 1,
           [⟨1, 40, 0, 1⟩, ⟨2, 0, 0, 1⟩]⟩ ∧
    findAccount sC5.accounts 1 = some ⟨1, 40, 1, 0⟩ ∧
    (40 : Nat) < 100 := by
  exact ⟨by rfl, by rfl, by decide⟩

/-- C5 (amended): at match time the contract debits the stake from the
placing player only (and bumps that player's `open_games`); the matched
offer's owner merely has `open_offers` traded for `open_games`, its
`eos_balance` staying exactly what it was — that stake was already debited at
offer placement. -/
theorem C5_amended {s : DiceState} {bet player c : Nat} {acct macct : Account} {m : Offer}
    (hbet : bet ≠ 0) (hdup : hasOffer s.offers c = false)
    (hacct : findAccount s.accounts player = some acct)
    (hm : betLowerBound (s.offers ++ [⟨availablePrimaryKey s.offers, player, bet, c, 0⟩]) bet
        = some m)
    (hmb : m.bet = bet) (hmo : m.owner ≠ player)
    (hma : findAccount s.accounts m.owner = some macct)
    (hnb : ¬ acct.eos_balance < bet) :
    ∃ s', onOfferbet s bet player c = .ok s' ∧
      findAccount s'.accounts player = some
        { acct with eos_balance := acct.eos_balance - bet,
                    open_games := acct.open_games + 1 } ∧
      findAccount s'.accounts m.owner = some
        { macct with open_offers := macct.open_offers - 1,
                     open_games := macct.open_games + 1 } ∧
      (∀ a, findAccount s'.accounts m.owner = some a →
        a.eos_balance = macct.eos_balance) := by
  have hbool : (m.bet == bet && m.owner != player) = true := by simp [hmb, hmo]
  unfold onOfferbet
  rw [if_neg hbet]
  rw [if_neg (show ¬ hasOffer s.offers c = true by simp [hdup])]
  simp only [hacct, hm, hbool, if_true, hma]
  rw [if_neg hnb]
  refine ⟨_, rfl, ?_, ?_, ?_⟩
  · show findAccount (modifyAccount (modifyAccount s.accounts m.owner matchedOwnerUpd)
      player (debitMatched bet)) player = _
    have h1 : findAccount (modifyAccount s.accounts m.owner matchedOwnerUpd) player
        = some acct := by
      rw [findAccount_modifyAccount_ne matchedOwnerUpd (fun _ => rfl) (Ne.symm hmo)]
      exact hacct
    exact findAccount_modifyAccount_self (debitMatched bet) (fun _ => rfl) h1
  · show findAccount (modifyAccount (modifyAccount s.accounts m.owner matchedOwnerUpd)
      player (debitMatched bet)) m.owner = _
    rw [findAccount_modifyAccount_ne (debitMatched bet) (fun _ => rfl) hmo]
    exact findAccount_modifyAccount_self matchedOwnerUpd (fun _ => rfl) hma
  · intro a ha
    rw [show findAccount (modifyAccount (modifyAccount s.accounts m.owner matchedOwnerUpd)
        player (debitMatched bet)) m.owner = some (matchedOwnerUpd macct) from ?_] at ha
    · cases ha
      rfl
    · rw [findAccount_modifyAccount_ne (debitMatched bet) (fun _ => rfl) hmo]
      exact findAccount_modifyAccount_self matchedOwnerUpd (fun _ => rfl) hma

theorem C5_amended_witness :
    ∃ s', onOfferbet sC5 100 2 12 = .ok s' ∧
      findAccount s'.accounts 2 = some ⟨2, 0, 0, 1⟩ ∧
      findAccount s'.accounts 1 = some ⟨1, 40, 0, 1⟩ ∧
      (∀ a, findAccount s'.accounts 1 = some a → a.eos_balance = 40) :=
  @C5_amended sC5 100 2 12 ⟨2, 100, 0, 0⟩ ⟨1, 40, 1, 0⟩ ⟨0, 1, 100, 11, 0⟩
    (by decide) (by rfl) rfl (by rfl) rfl (by decide) rfl (by decide)

/-! ### C10 -/

/-- C10: an `offerbet` that passes the zero-stake and duplicate-commitment
guards but whose player balance is below the stake aborts with the
insufficient-funds assert and changes nothing, in both the queue and the
match paths (the side condition that every offer owner has an account row
holds on all reachable states, see C9). -/
theorem C10_insufficient_funds {s : DiceState} {bet player c : Nat} {acct : Account}
    (hbet : bet ≠ 0) (hdup : hasOffer s.offers c = false)
    (hacct : findAccount s.accounts player = some acct)
    (hown : ∀ o ∈ s.offers, ∃ a ∈ s.accounts, a.owner = o.owner)
    (hbal : acct.eos_balance < bet) :
    onOfferbet s bet player c = .error .insufficientFunds := by
  unfold onOfferbet
  rw [if_neg hbet]
  rw [if_neg (show ¬ hasOffer s.offers c = true by simp [hdup])]
  simp only [hacct]
  cases hm : betLowerBound (s.offers ++ [⟨availablePrimaryKey s.offers, player, bet, c, 0⟩])
      bet with
  | none =>
    simp only [hm]
    rw [if_pos hbal]
  | some m =>
    by_cases hcond : (m.bet == bet && m.owner != player) = true
    · have hmem := betLowerBound_mem hm
      rcases List.mem_append.mp hmem with hin | hin
      · obtain ⟨ma, hma⟩ := findAccount_isSome (hown m hin)
        simp only [hm, hcond, if_true, hma]
        rw [if_pos hbal]
      · have hmeq : m = ⟨availablePrimaryKey s.offers, player, bet, c, 0⟩ := by
          simpa using hin
        rw [Bool.and_eq_true] at hcond
        obtain ⟨_, hb2⟩ := hcond
        rw [hmeq] at hb2
        simp at hb2
    · have hcf : (m.bet == bet && m.owner != player) = false :=
        Bool.eq_false_iff.mpr hcond
      simp only [hm, hcf, Bool.false_eq_true, if_false]
      rw [if_pos hbal]

theorem C10_witness :
    onOfferbet (⟨[], [], none, [⟨1, 50, 0, 0⟩]⟩ : DiceState) 100 1 9
      = .error .insufficientFunds :=
  C10_insufficient_funds (by decide) (by rfl) rfl (by simp) (by decide)

end Dice
